import Mathlib

/-!
Verification of the make-notes alignment engine (`mn/transcribe.py`,
`mn/edit.py`, `mn/fmt.py`) against its specification.

Modelling conventions:
* Python `str` values are Lean `String`s; character-level operations are
  defined over `List Char` (a Python string is a sequence of code points,
  as is `String.data`).
* Python `float` timestamps are modelled as exact rationals `ℚ`.  A finite
  binary64 float is a dyadic rational, and `json.dumps`/`json.loads`
  round-trip floats exactly through their decimal representation, so the
  faithful image of "is a float" at the serialization layer is "has a
  finite decimal expansion" (`DecFinite` below).
* Python exceptions are modelled with `Option`/`Except`: a raised
  exception is `none`/`.error`.
* `\d` of Python's `re` and `int()` accept non-ASCII decimal digits; the
  model restricts to ASCII digits.  Python's whitespace set (for `strip`
  and `\s`) is modelled with the full table of `str.isspace` code points.
-/

set_option maxHeartbeats 1000000
set_option maxRecDepth 4000

/-- The code points for which Python's `str.isspace` is true (the set
stripped by `str.strip()` and matched by `re`'s `\s`). -/
def pySpaceChars : List Char :=
  [' ', '\t', '\n', '\r', '\x0b', '\x0c',
   '\x1c', '\x1d', '\x1e', '\x1f', '\u0085', ' ', ' ',
   ' ', ' ', ' ', ' ', ' ', ' ', ' ',
   ' ', ' ', ' ', ' ', ' ', ' ', ' ',
   ' ', '　']

/-- Python `str.isspace` on a single character. -/
def pyIsSpace (c : Char) : Bool :=
  pySpaceChars.contains c

/-- Python `str.strip()` with no arguments, over the character list. -/
def pyStrip (l : List Char) : List Char :=
  ((l.dropWhile pyIsSpace).reverse.dropWhile pyIsSpace).reverse

/-- Python `str.strip()` at the `String` level. -/
def pyStripStr (s : String) : String :=
  String.mk (pyStrip s.data)

/-- Python `str.split(sep)` for a single-character separator.
`splitChar sep []` is `[[]]`, matching `"".split(sep) == [""]`. -/
def splitChar (sep : Char) (l : List Char) : List (List Char) :=
  l.foldr
    (fun c acc =>
      match acc with
      | [] => [[c]]
      | a :: as => if c = sep then [] :: a :: as else (c :: a) :: as)
    [[]]

/-- Python `sep.join(parts)` for a list-of-characters separator. -/
def joinWith (sep : List Char) : List (List Char) → List Char
  | [] => []
  | [x] => x
  | x :: y :: xs => x ++ sep ++ joinWith sep (y :: xs)

/-- Python `"".join(strings)` (string concatenation in order). -/
def pyJoin (l : List String) : String :=
  l.foldl (· ++ ·) ""

/-- The character for a single decimal digit value. -/
def digitChar (d : ℕ) : Char := Char.ofNat (48 + d)

/-- Base-10 digits, least significant first, via fuel-bounded structural
recursion (kernel-computable, equal to `Nat.digits 10`). -/
def natDigitsAux : ℕ → ℕ → List ℕ
  | 0, _ => []
  | _ + 1, 0 => []
  | fuel + 1, n + 1 => (n + 1) % 10 :: natDigitsAux fuel ((n + 1) / 10)

/-- Base-10 digits of `n`, least significant first. -/
def natDecDigits (n : ℕ) : List ℕ := natDigitsAux n n

theorem natDigitsAux_eq_digits : ∀ (fuel n : ℕ), n ≤ fuel →
    natDigitsAux fuel n = Nat.digits 10 n := by
  intro fuel
  induction fuel with
  | zero =>
    intro n hn
    interval_cases n
    simp [natDigitsAux]
  | succ fuel ih =>
    intro n hn
    cases n with
    | zero => simp [natDigitsAux]
    | succ n' =>
      rw [natDigitsAux, Nat.digits_def' (by norm_num : (1:ℕ) < 10) (Nat.succ_pos n')]
      rw [ih ((n' + 1) / 10) (by
        have := Nat.div_lt_self (Nat.succ_pos n') (by norm_num : (1:ℕ) < 10)
        omega)]

theorem natDecDigits_eq_digits (n : ℕ) : natDecDigits n = Nat.digits 10 n :=
  natDigitsAux_eq_digits n n le_rfl

/-- Decimal rendering of a natural number, most significant digit first. -/
def natToDecimal (n : ℕ) : List Char :=
  if n = 0 then ['0'] else ((natDecDigits n).map digitChar).reverse

/-- Decimal rendering of an integer (Python's `repr` for `int`). -/
def intToDecimal (n : ℤ) : List Char :=
  if n < 0 then '-' :: natToDecimal n.natAbs else natToDecimal n.toNat

/-- Value of a list of ASCII decimal digits, most significant first. -/
def parseNatDigits (l : List Char) : ℕ :=
  l.foldl (fun a c => 10 * a + (c.toNat - 48)) 0

/-- Python `f"{n:02d}"`: left-pad to width 2 with `'0'`. -/
def pad02 (l : List Char) : List Char :=
  if l.length < 2 then '0' :: l else l

/-- Python `int(q)` on a rational: truncation toward zero. -/
def pyTrunc (q : ℚ) : ℤ :=
  if 0 ≤ q then ⌊q⌋ else -⌊-q⌋

/-! ## The data model (`mn/transcribe.py`)

`Segment` is the dataclass of `transcribe.py`; `Word` and `SpeakerTurn`
are the dict shapes produced by the transcription and diarization
collaborators (`{"text","start","end"}` and `{"speaker","start","end"}`).
The Python field `end` is a Lean keyword, hence the guillemets. -/

structure Segment where
  speaker : String
  text : String
  start : ℚ
  «end» : ℚ
  deriving Repr, DecidableEq

structure Word where
  text : String
  start : ℚ
  «end» : ℚ
  deriving Repr, DecidableEq

structure SpeakerTurn where
  speaker : String
  start : ℚ
  «end» : ℚ
  deriving Repr, DecidableEq

/-! ## Stage 3: align (`transcribe.py` lines 97-147) -/

/-- The overlap length computed inside `_find_speaker`:
`max(0.0, min(end, seg["end"]) - max(start, seg["start"]))`. -/
def overlapLen (start «end» : ℚ) (t : SpeakerTurn) : ℚ :=
  max 0 (min «end» t.«end» - max start t.start)

/-- One iteration of the best-overlap loop in `_find_speaker`:
`if ov > best_overlap: best, best_overlap = seg["speaker"], ov`. -/
def bestStep (start «end» : ℚ) (bb : String × ℚ) (t : SpeakerTurn) : String × ℚ :=
  if overlapLen start «end» t > bb.2 then (t.speaker, overlapLen start «end» t) else bb

/-- Whether `mid` lies in `[seg["start"], seg["end"]]` (the fallback test
of `_find_speaker`). -/
def containsMid (mid : ℚ) (t : SpeakerTurn) : Bool :=
  decide (t.start ≤ mid ∧ mid ≤ t.«end»)

/-- `_find_speaker(start, end)` of `transcribe.align` (lines 111-122),
closing over the turn list. -/
def _find_speaker (turns : List SpeakerTurn) (start «end» : ℚ) : String :=
  let mid := (start + «end») / 2
  let bb := turns.foldl (bestStep start «end») ("Unknown", 0)
  if bb.2 = 0 then
    match turns.find? (containsMid mid) with
    | some t => t.speaker
    | none => bb.1
  else bb.1

/-- Finalizing an open segment: `cur["text"] = cur["text"].strip()`. -/
def finalizeSeg (c : Segment) : Segment :=
  { c with text := pyStripStr c.text }

/-- One iteration of the run-merging loop of `align` (lines 132-141).
State is (emitted segments, open segment); the input is an attributed
word (the word dict together with its `"speaker"` entry). -/
def mergeStep (st : List Segment × Option Segment) (aw : Word × String) :
    List Segment × Option Segment :=
  match st.2 with
  | none => (st.1, some ⟨aw.2, aw.1.text, aw.1.start, aw.1.«end»⟩)
  | some c =>
    if aw.2 ≠ c.speaker then
      (st.1 ++ [finalizeSeg c], some ⟨aw.2, aw.1.text, aw.1.start, aw.1.«end»⟩)
    else
      (st.1, some { c with text := c.text ++ aw.1.text, «end» := aw.1.«end» })

/-- The run-merging loop of `align` (lines 130-147), including the final
flush `if cur: ... segments.append(Segment(**cur))`. -/
def mergeRuns (aws : List (Word × String)) : List Segment :=
  let st := aws.foldl mergeStep ([], none)
  st.1 ++ (match st.2 with | some c => [finalizeSeg c] | none => [])

/-- `transcribe.align(words, speaker_segments)` (lines 97-147). -/
def align (words : List Word) (speaker_segments : List SpeakerTurn) : List Segment :=
  match words with
  | [] => []
  | w :: ws =>
    match speaker_segments with
    | [] =>
      [⟨"Speaker", pyStripStr (pyJoin ((w :: ws).map Word.text)),
        w.start, (ws.getLastD w).«end»⟩]
    | _ :: _ =>
      mergeRuns ((w :: ws).map
        (fun wd => (wd, _find_speaker speaker_segments wd.start wd.«end»)))


/-! ## Run structure of attributed word lists

`splitRuns` is the declarative counterpart of the merging loop: it cuts an
attributed word list into its maximal runs of consecutive words with the
same speaker (each run is a head together with the rest of the run). -/

def splitRuns : List (Word × String) → List ((Word × String) × List (Word × String))
  | [] => []
  | x :: xs =>
    match splitRuns xs with
    | [] => [(x, [])]
    | (y, r) :: rs => if x.2 = y.2 then (x, y :: r) :: rs else (x, []) :: (y, r) :: rs

/-- The segment the specification assigns to one maximal run: the run's
speaker, the verbatim concatenation of the run's word texts trimmed at
finalization, the first word's start and the last word's end. -/
def runSeg (r : (Word × String) × List (Word × String)) : Segment :=
  ⟨r.1.2, pyStripStr (pyJoin ((r.1 :: r.2).map (fun a => a.1.text))),
    r.1.1.start, ((r.2.getLastD r.1).1.«end»)⟩

theorem pyJoin_foldl (l : List String) : ∀ a : String, l.foldl (· ++ ·) a = a ++ pyJoin l := by
  induction l with
  | nil => intro a; simp [pyJoin, String.append_empty]
  | cons x xs ih =>
    intro a
    have hx : pyJoin (x :: xs) = x ++ pyJoin xs := by
      show List.foldl (· ++ ·) "" (x :: xs) = _
      rw [List.foldl_cons, String.empty_append, ih x]
    rw [List.foldl_cons, ih (a ++ x), hx, String.append_assoc]

theorem pyJoin_nil : pyJoin [] = "" := rfl

theorem pyJoin_cons (a : String) (l : List String) :
    pyJoin (a :: l) = a ++ pyJoin l := by
  show List.foldl (· ++ ·) "" (a :: l) = _
  rw [List.foldl_cons, String.empty_append, pyJoin_foldl]

/-- Recursive form of the run-merging loop, carrying the open segment. -/
def mergeAux (c : Segment) : List (Word × String) → List Segment
  | [] => [finalizeSeg c]
  | aw :: rest =>
    if aw.2 ≠ c.speaker then
      finalizeSeg c :: mergeAux ⟨aw.2, aw.1.text, aw.1.start, aw.1.«end»⟩ rest
    else
      mergeAux { c with text := c.text ++ aw.1.text, «end» := aw.1.«end» } rest

/-- Flushing the final open segment of the merging loop. -/
def flushOpen : Option Segment → List Segment
  | some c => [finalizeSeg c]
  | none => []

theorem mergeStep_none (segs : List Segment) (aw : Word × String) :
    mergeStep (segs, none) aw = (segs, some ⟨aw.2, aw.1.text, aw.1.start, aw.1.«end»⟩) := rfl

theorem mergeStep_some (segs : List Segment) (c : Segment) (aw : Word × String) :
    mergeStep (segs, some c) aw =
      if aw.2 ≠ c.speaker then
        (segs ++ [finalizeSeg c], some ⟨aw.2, aw.1.text, aw.1.start, aw.1.«end»⟩)
      else
        (segs, some { c with text := c.text ++ aw.1.text, «end» := aw.1.«end» }) := rfl

theorem mergeAux_nil (c : Segment) : mergeAux c [] = [finalizeSeg c] := rfl

theorem mergeAux_cons (c : Segment) (aw : Word × String) (rest : List (Word × String)) :
    mergeAux c (aw :: rest) =
      if aw.2 ≠ c.speaker then
        finalizeSeg c :: mergeAux ⟨aw.2, aw.1.text, aw.1.start, aw.1.«end»⟩ rest
      else
        mergeAux { c with text := c.text ++ aw.1.text, «end» := aw.1.«end» } rest := rfl

theorem splitRuns_cons (x : Word × String) (xs : List (Word × String)) :
    splitRuns (x :: xs) =
      match splitRuns xs with
      | [] => [(x, [])]
      | (y, r) :: rs => if x.2 = y.2 then (x, y :: r) :: rs else (x, []) :: (y, r) :: rs := rfl

theorem mergeRuns_fold_open (aws : List (Word × String)) :
    ∀ (segs : List Segment) (c : Segment),
      (aws.foldl mergeStep (segs, some c)).1 ++
          flushOpen (aws.foldl mergeStep (segs, some c)).2 =
        segs ++ mergeAux c aws := by
  induction aws with
  | nil => intro segs c; simp [flushOpen, mergeAux_nil]
  | cons aw rest ih =>
    intro segs c
    rw [List.foldl_cons, mergeStep_some, mergeAux_cons]
    by_cases h : aw.2 = c.speaker
    · rw [if_neg (not_not_intro h), if_neg (not_not_intro h)]
      exact ih segs _
    · rw [if_pos h, if_pos h, ih (segs ++ [finalizeSeg c]) _, List.append_assoc]
      rfl

theorem mergeRuns_nil : mergeRuns [] = [] := rfl

theorem mergeRuns_cons (aw : Word × String) (rest : List (Word × String)) :
    mergeRuns (aw :: rest) =
      mergeAux ⟨aw.2, aw.1.text, aw.1.start, aw.1.«end»⟩ rest := by
  show (List.foldl mergeStep ([], none) (aw :: rest)).1 ++
      flushOpen (List.foldl mergeStep ([], none) (aw :: rest)).2 = _
  rw [List.foldl_cons, mergeStep_none, mergeRuns_fold_open rest [] _, List.nil_append]

theorem splitRuns_eq_nil (l : List (Word × String)) : splitRuns l = [] ↔ l = [] := by
  constructor
  · intro h
    cases l with
    | nil => rfl
    | cons x xs =>
      rw [splitRuns_cons] at h
      rcases hs : splitRuns xs with _ | ⟨⟨y, r⟩, rs⟩ <;> rw [hs] at h
      · simp at h
      · by_cases hxy : x.2 = y.2 <;> simp [hxy] at h
  · rintro rfl; rfl

theorem getLast?_getD_cons {α : Type} (a b : α) (l : List α) :
    (b :: l).getLast?.getD a = l.getLast?.getD b := by
  rw [← List.getLastD_eq_getLast?, ← List.getLastD_eq_getLast?, List.getLastD_cons]

theorem mergeAux_eq (aws : List (Word × String)) :
    ∀ c : Segment,
      mergeAux c aws =
        match splitRuns aws with
        | [] => [finalizeSeg c]
        | (y, r) :: rs =>
          if y.2 = c.speaker then
            finalizeSeg ⟨c.speaker, c.text ++ pyJoin ((y :: r).map (fun a => a.1.text)),
                c.start, ((r.getLastD y).1.«end»)⟩ :: rs.map runSeg
          else
            finalizeSeg c :: ((y, r) :: rs).map runSeg := by
  induction aws with
  | nil => intro c; rfl
  | cons aw rest ih =>
    intro c
    rw [splitRuns_cons]
    rcases hs : splitRuns rest with _ | ⟨⟨y, r⟩, rs⟩
    · have hrest : rest = [] := (splitRuns_eq_nil rest).mp hs
      subst hrest
      rw [mergeAux_cons]
      by_cases h : aw.2 = c.speaker
      · rw [if_neg (not_not_intro h), mergeAux_nil]
        simp [finalizeSeg, h, pyJoin_cons, pyJoin_nil, String.append_empty,
          runSeg, List.getLastD_nil]
      · rw [if_pos h, mergeAux_nil]
        simp [finalizeSeg, h, pyJoin_cons, pyJoin_nil, String.append_empty,
          runSeg, List.getLastD_nil]
    · rw [mergeAux_cons]
      by_cases h : aw.2 = c.speaker
      · rw [if_neg (not_not_intro h), ih, hs]
        by_cases hxy : aw.2 = y.2
        · have hyc : y.2 = c.speaker := by rw [← hxy, h]
          simp only [if_pos hxy, if_pos hyc]
          rw [if_pos (show aw.2 = c.speaker from h)]
          simp [List.getLastD_cons, pyJoin_cons, String.append_assoc, getLast?_getD_cons]
        · have hyc : ¬ y.2 = c.speaker := fun hh => hxy (h.trans hh.symm)
          simp only [if_neg hxy, if_neg hyc]
          rw [if_pos (show aw.2 = c.speaker from h)]
          simp [runSeg, finalizeSeg, List.getLastD_nil, pyJoin_cons, pyJoin_nil,
            String.append_empty]
      · rw [if_pos h, ih, hs]
        by_cases hxy : aw.2 = y.2
        · have hy : y.2 = aw.2 := hxy.symm
          simp only [if_pos hxy, if_pos hy]
          rw [if_neg (show ¬ aw.2 = c.speaker from h)]
          simp [runSeg, finalizeSeg, List.getLastD_cons, pyJoin_cons, getLast?_getD_cons,
            String.append_assoc]
        · have hy : ¬ y.2 = aw.2 := fun hh => hxy hh.symm
          simp only [if_neg hxy, if_neg hy]
          rw [if_neg (show ¬ aw.2 = c.speaker from h)]
          simp [runSeg, finalizeSeg, List.getLastD_nil, pyJoin_cons, pyJoin_nil,
            String.append_empty]

/-- The merging loop produces exactly the per-run segments of `splitRuns`. -/
theorem mergeRuns_eq_runs (aws : List (Word × String)) :
    mergeRuns aws = (splitRuns aws).map runSeg := by
  cases aws with
  | nil => rfl
  | cons aw rest =>
    rw [mergeRuns_cons, mergeAux_eq, splitRuns_cons]
    rcases hs : splitRuns rest with _ | ⟨⟨y, r⟩, rs⟩
    · simp [runSeg, finalizeSeg, pyJoin_cons, pyJoin_nil, String.append_empty]
    · by_cases hxy : aw.2 = y.2
      · have hy : y.2 = aw.2 := hxy.symm
        simp only [if_pos hxy, if_pos hy]
        simp [runSeg, finalizeSeg, List.getLastD_cons, pyJoin_cons, getLast?_getD_cons,
          String.append_assoc]
      · have hy : ¬ y.2 = aw.2 := fun hh => hxy hh.symm
        simp only [if_neg hxy, if_neg hy]
        simp [runSeg, finalizeSeg, List.getLastD_nil, pyJoin_cons, pyJoin_nil,
          String.append_empty]

theorem splitRuns_flatten (l : List (Word × String)) :
    ((splitRuns l).map (fun p => p.1 :: p.2)).flatten = l := by
  induction l with
  | nil => rfl
  | cons x xs ih =>
    rw [splitRuns_cons]
    rcases hs : splitRuns xs with _ | ⟨⟨y, r⟩, rs⟩
    · have hxs : xs = [] := (splitRuns_eq_nil xs).mp hs
      subst hxs; rfl
    · rw [hs] at ih
      by_cases hxy : x.2 = y.2
      · simp only [if_pos hxy, List.map_cons, List.flatten_cons]
        simp only [List.map_cons, List.flatten_cons] at ih
        simp [← ih]
      · simp only [if_neg hxy, List.map_cons, List.flatten_cons]
        simp only [List.map_cons, List.flatten_cons] at ih
        simp [← ih]

theorem splitRuns_run_speaker (l : List (Word × String)) :
    ∀ p ∈ splitRuns l, ∀ a ∈ p.1 :: p.2, a.2 = p.1.2 := by
  induction l with
  | nil => intro p hp; simp [splitRuns] at hp
  | cons x xs ih =>
    intro p hp
    rw [splitRuns_cons] at hp
    rcases hs : splitRuns xs with _ | ⟨⟨y, r⟩, rs⟩ <;> rw [hs] at hp
    · simp at hp
      subst hp
      intro a ha; simp at ha; subst ha; rfl
    · by_cases hxy : x.2 = y.2
      · simp only [if_pos hxy] at hp
        rcases List.mem_cons.mp hp with h1 | h2
        · subst h1
          intro a ha
          rcases List.mem_cons.mp ha with rfl | ha'
          · rfl
          · have := ih (y, r) (by rw [hs]; exact List.mem_cons_self _ _) a ha'
            simpa [this] using hxy.symm
        · exact ih p (by rw [hs]; exact List.mem_cons_of_mem _ h2)
      · simp only [if_neg hxy] at hp
        rcases List.mem_cons.mp hp with h1 | h2
        · subst h1
          intro a ha; simp at ha; subst ha; rfl
        · exact ih p (by rw [hs]; exact h2)

theorem splitRuns_heads_sublist (l : List (Word × String)) :
    List.Sublist ((splitRuns l).map (fun p => p.1)) l := by
  induction l with
  | nil => simp [splitRuns]
  | cons x xs ih =>
    rw [splitRuns_cons]
    rcases hs : splitRuns xs with _ | ⟨⟨y, r⟩, rs⟩ <;> rw [hs] at ih
    · simp
    · by_cases hxy : x.2 = y.2
      · simp only [if_pos hxy]
        simp only [List.map_cons] at ih ⊢
        exact List.Sublist.cons₂ x (List.Sublist.trans (List.sublist_cons_self y _) ih)
      · simp only [if_neg hxy]
        simp only [List.map_cons] at ih ⊢
        exact List.Sublist.cons₂ x ih

theorem splitRuns_chain (l : List (Word × String)) :
    List.Chain' (fun p q => p.1.2 ≠ q.1.2) (splitRuns l) := by
  induction l with
  | nil => simp [splitRuns]
  | cons x xs ih =>
    rw [splitRuns_cons]
    rcases hs : splitRuns xs with _ | ⟨⟨y, r⟩, rs⟩ <;> rw [hs] at ih
    · simp
    · by_cases hxy : x.2 = y.2
      · simp only [if_pos hxy]
        cases rs with
        | nil => simp
        | cons q qs =>
          have h1 : ¬ y.2 = q.1.2 := (List.chain'_cons.mp ih).1
          refine List.chain'_cons.mpr ⟨?_, (List.chain'_cons.mp ih).2⟩
          simpa [hxy] using h1
      · simp only [if_neg hxy]
        exact List.chain'_cons.mpr ⟨hxy, ih⟩

/-! ## Behaviour of `_find_speaker` -/

/-- Invariant of the best-overlap scan: the fold either never improves on
the initial pair (and then every overlap is at most the initial value), or
it returns the first strict maximum of the overlaps above the initial
value. -/
theorem bestFold_spec (start «end» : ℚ) (ts : List SpeakerTurn) :
    ∀ (b0 : String) (v0 : ℚ),
      (ts.foldl (bestStep start «end») (b0, v0) = (b0, v0) ∧
        ∀ t ∈ ts, overlapLen start «end» t ≤ v0) ∨
      (∃ i, ∃ hi : i < ts.length,
        ts.foldl (bestStep start «end») (b0, v0) =
          ((ts.get ⟨i, hi⟩).speaker, overlapLen start «end» (ts.get ⟨i, hi⟩)) ∧
        v0 < overlapLen start «end» (ts.get ⟨i, hi⟩) ∧
        (∀ j, ∀ hj : j < ts.length,
          overlapLen start «end» (ts.get ⟨j, hj⟩) ≤ overlapLen start «end» (ts.get ⟨i, hi⟩)) ∧
        (∀ j, ∀ hj : j < ts.length, j < i →
          overlapLen start «end» (ts.get ⟨j, hj⟩) < overlapLen start «end» (ts.get ⟨i, hi⟩))) := by
  induction ts with
  | nil => intro b0 v0; left; exact ⟨rfl, by simp⟩
  | cons t ts' ih =>
    intro b0 v0
    rw [List.foldl_cons]
    by_cases h : overlapLen start «end» t > v0
    · rw [show bestStep start «end» (b0, v0) t = (t.speaker, overlapLen start «end» t) from
        by simp [bestStep, h]]
      rcases ih t.speaker (overlapLen start «end» t) with ⟨heq, hall⟩ | ⟨i, hi, heq, hv, hmax, hfirst⟩
      · right
        refine ⟨0, by simp, ?_, h, ?_, ?_⟩
        · simpa using heq
        · intro j hj
          cases j with
          | zero => simp
          | succ j' =>
            simp only [List.get_cons_succ, List.get_cons_zero]
            exact hall _ (List.get_mem _ _ _)
        · intro j hj hj0; omega
      · right
        refine ⟨i + 1, by simpa using Nat.succ_lt_succ hi, ?_, ?_, ?_, ?_⟩
        · simpa using heq
        · exact lt_trans h hv
        · intro j hj
          cases j with
          | zero => simp only [List.get_cons_zero, List.get_cons_succ]; exact le_of_lt hv
          | succ j' => simp only [List.get_cons_succ]; exact hmax j' _
        · intro j hj hji
          cases j with
          | zero => simp only [List.get_cons_zero, List.get_cons_succ]; exact hv
          | succ j' =>
            simp only [List.get_cons_succ]
            exact hfirst j' _ (Nat.lt_of_succ_lt_succ hji)
    · rw [show bestStep start «end» (b0, v0) t = (b0, v0) from by simp [bestStep, h]]
      rcases ih b0 v0 with ⟨heq, hall⟩ | ⟨i, hi, heq, hv, hmax, hfirst⟩
      · left
        refine ⟨heq, ?_⟩
        intro u hu
        rcases List.mem_cons.mp hu with rfl | hu'
        · exact not_lt.mp h
        · exact hall u hu'
      · right
        refine ⟨i + 1, by simpa using Nat.succ_lt_succ hi, ?_, hv, ?_, ?_⟩
        · simpa using heq
        · intro j hj
          cases j with
          | zero =>
            simp only [List.get_cons_zero, List.get_cons_succ]
            exact le_of_lt (lt_of_le_of_lt (not_lt.mp h) hv)
          | succ j' => simp only [List.get_cons_succ]; exact hmax j' _
        · intro j hj hji
          cases j with
          | zero =>
            simp only [List.get_cons_zero, List.get_cons_succ]
            exact lt_of_le_of_lt (not_lt.mp h) hv
          | succ j' =>
            simp only [List.get_cons_succ]
            exact hfirst j' _ (Nat.lt_of_succ_lt_succ hji)

theorem find?_first {α : Type} (p : α → Bool) (l : List α) :
    ∀ (i : ℕ) (hi : i < l.length), p (l.get ⟨i, hi⟩) = true →
      (∀ j, ∀ hj : j < l.length, j < i → p (l.get ⟨j, hj⟩) = false) →
      l.find? p = some (l.get ⟨i, hi⟩) := by
  induction l with
  | nil => intro i hi; simp at hi
  | cons x xs ih =>
    intro i hi hp hfirst
    cases i with
    | zero =>
      exact List.find?_cons_of_pos _ hp
    | succ i' =>
      have hx : p x = false := by
        have := hfirst 0 (by simp) (Nat.succ_pos i')
        simpa using this
      rw [List.find?_cons_of_neg _ (by simp [hx])]
      simp only [List.get_cons_succ] at hp ⊢
      exact ih i' _ hp (fun j hj hji => by
        have := hfirst (j + 1) (by simpa using Nat.succ_lt_succ hj) (Nat.succ_lt_succ hji)
        simpa using this)

/-- If some turn has positive overlap, `_find_speaker` returns the speaker
of the first turn achieving the strictly greatest overlap. -/
theorem findSpeaker_max (turns : List SpeakerTurn) (start «end» : ℚ)
    (h : ∃ t ∈ turns, 0 < overlapLen start «end» t) :
    ∃ i, ∃ hi : i < turns.length,
      _find_speaker turns start «end» = (turns.get ⟨i, hi⟩).speaker ∧
      0 < overlapLen start «end» (turns.get ⟨i, hi⟩) ∧
      (∀ j, ∀ hj : j < turns.length,
        overlapLen start «end» (turns.get ⟨j, hj⟩) ≤ overlapLen start «end» (turns.get ⟨i, hi⟩)) ∧
      (∀ j, ∀ hj : j < turns.length, j < i →
        overlapLen start «end» (turns.get ⟨j, hj⟩) < overlapLen start «end» (turns.get ⟨i, hi⟩)) := by
  rcases bestFold_spec start «end» turns "Unknown" 0 with ⟨heq, hall⟩ | ⟨i, hi, heq, hv, hmax, hfirst⟩
  · exfalso
    rcases h with ⟨t, ht, hpos⟩
    exact absurd (hall t ht) (not_le.mpr hpos)
  · refine ⟨i, hi, ?_, hv, hmax, hfirst⟩
    show (if (List.foldl (bestStep start «end») ("Unknown", 0) turns).2 = 0 then _ else
      (List.foldl (bestStep start «end») ("Unknown", 0) turns).1) = _
    rw [heq]
    rw [if_neg (ne_of_gt hv)]

/-- If every overlap is zero, `_find_speaker` falls back to the first turn
containing the midpoint, and to `"Unknown"` if there is none. -/
theorem findSpeaker_zero (turns : List SpeakerTurn) (start «end» : ℚ)
    (h : ∀ t ∈ turns, overlapLen start «end» t = 0) :
    _find_speaker turns start «end» =
      match turns.find? (containsMid ((start + «end») / 2)) with
      | some t => t.speaker
      | none => "Unknown" := by
  rcases bestFold_spec start «end» turns "Unknown" 0 with ⟨heq, _⟩ | ⟨i, hi, _, hv, _, _⟩
  · show (if (List.foldl (bestStep start «end») ("Unknown", 0) turns).2 = 0 then _ else
      (List.foldl (bestStep start «end») ("Unknown", 0) turns).1) = _
    rw [heq]
    simp
  · exfalso
    have := h _ (List.get_mem turns i hi)
    rw [this] at hv
    exact absurd hv (lt_irrefl 0)

/-- `_find_speaker` only ever returns `"Unknown"` or the speaker of one of
the turns. -/
theorem findSpeaker_mem (turns : List SpeakerTurn) (start «end» : ℚ) :
    _find_speaker turns start «end» = "Unknown" ∨
      ∃ t ∈ turns, _find_speaker turns start «end» = t.speaker := by
  show _find_speaker turns start «end» = "Unknown" ∨ _
  rcases bestFold_spec start «end» turns "Unknown" 0 with ⟨heq, _⟩ | ⟨i, hi, heq, hv, _, _⟩
  · have hunfold : _find_speaker turns start «end» =
        match turns.find? (containsMid ((start + «end») / 2)) with
        | some t => t.speaker
        | none => "Unknown" := by
      show (if (List.foldl (bestStep start «end») ("Unknown", 0) turns).2 = 0 then _ else
        (List.foldl (bestStep start «end») ("Unknown", 0) turns).1) = _
      rw [heq]
      simp
    rcases hf : turns.find? (containsMid ((start + «end») / 2)) with _ | t
    · left; rw [hunfold, hf]
    · right
      exact ⟨t, List.mem_of_find?_eq_some hf, by rw [hunfold, hf]⟩
  · right
    refine ⟨turns.get ⟨i, hi⟩, List.get_mem turns i hi, ?_⟩
    show (if (List.foldl (bestStep start «end») ("Unknown", 0) turns).2 = 0 then _ else
      (List.foldl (bestStep start «end») ("Unknown", 0) turns).1) = _
    rw [heq]
    rw [if_neg (ne_of_gt hv)]

/-! ## Claim theorems: attribution and merging -/

/-- C1: for every word interval and every turn list in which at least one
turn has positive overlap with the word, `_find_speaker` returns the
speaker of the turn whose overlap length is strictly greatest; among
several turns tying for the greatest overlap the first in input order
wins. -/
theorem C1_overlap_attribution (turns : List SpeakerTurn) (word_start word_end : ℚ)
    (h : ∃ t ∈ turns, 0 < overlapLen word_start word_end t) :
    ∃ i, ∃ hi : i < turns.length,
      _find_speaker turns word_start word_end = (turns.get ⟨i, hi⟩).speaker ∧
      0 < overlapLen word_start word_end (turns.get ⟨i, hi⟩) ∧
      (∀ j, ∀ hj : j < turns.length,
        overlapLen word_start word_end (turns.get ⟨j, hj⟩) ≤
          overlapLen word_start word_end (turns.get ⟨i, hi⟩)) ∧
      (∀ j, ∀ hj : j < turns.length, j < i →
        overlapLen word_start word_end (turns.get ⟨j, hj⟩) <
          overlapLen word_start word_end (turns.get ⟨i, hi⟩)) :=
  findSpeaker_max turns word_start word_end h

/-- Witness for C1: the spec's tie-break example.  Word `[0.8, 1.5]`
against turns `A[0.0, 1.0]` (overlap 0.2) and `B[1.0, 2.0]` (overlap 0.5)
attributes to `B`. -/
theorem C1_overlap_attribution_witness :
    (∃ t ∈ [(⟨"A", 0, 1⟩ : SpeakerTurn), ⟨"B", 1, 2⟩], 0 < overlapLen (4/5) (3/2) t) ∧
    (∃ i, ∃ hi : i < ([(⟨"A", 0, 1⟩ : SpeakerTurn), ⟨"B", 1, 2⟩]).length,
      _find_speaker [⟨"A", 0, 1⟩, ⟨"B", 1, 2⟩] (4/5) (3/2) =
        (([(⟨"A", 0, 1⟩ : SpeakerTurn), ⟨"B", 1, 2⟩]).get ⟨i, hi⟩).speaker ∧
      0 < overlapLen (4/5) (3/2) (([(⟨"A", 0, 1⟩ : SpeakerTurn), ⟨"B", 1, 2⟩]).get ⟨i, hi⟩) ∧
      (∀ j, ∀ hj : j < ([(⟨"A", 0, 1⟩ : SpeakerTurn), ⟨"B", 1, 2⟩]).length,
        overlapLen (4/5) (3/2) (([(⟨"A", 0, 1⟩ : SpeakerTurn), ⟨"B", 1, 2⟩]).get ⟨j, hj⟩) ≤
          overlapLen (4/5) (3/2) (([(⟨"A", 0, 1⟩ : SpeakerTurn), ⟨"B", 1, 2⟩]).get ⟨i, hi⟩)) ∧
      (∀ j, ∀ hj : j < ([(⟨"A", 0, 1⟩ : SpeakerTurn), ⟨"B", 1, 2⟩]).length, j < i →
        overlapLen (4/5) (3/2) (([(⟨"A", 0, 1⟩ : SpeakerTurn), ⟨"B", 1, 2⟩]).get ⟨j, hj⟩) <
          overlapLen (4/5) (3/2) (([(⟨"A", 0, 1⟩ : SpeakerTurn), ⟨"B", 1, 2⟩]).get ⟨i, hi⟩))) ∧
    _find_speaker [⟨"A", 0, 1⟩, ⟨"B", 1, 2⟩] (4/5) (3/2) = "B" := by
  have h : ∃ t ∈ [(⟨"A", 0, 1⟩ : SpeakerTurn), ⟨"B", 1, 2⟩], 0 < overlapLen (4/5) (3/2) t := by
    refine ⟨⟨"B", 1, 2⟩, by simp, ?_⟩
    norm_num [overlapLen, min_def, max_def]
  refine ⟨h, C1_overlap_attribution _ _ _ h, ?_⟩
  simp only [_find_speaker, bestStep, overlapLen, containsMid, List.foldl, List.find?]
  norm_num

/-- C5: when every turn's overlap with the word is exactly zero,
`_find_speaker` returns the speaker of the first turn (in input order)
whose `[start, end]` interval contains the word's midpoint, inclusive on
both ends, and the sentinel `"Unknown"` if no turn contains it. -/
theorem C5_midpoint_fallback (turns : List SpeakerTurn) (word_start word_end : ℚ)
    (h : ∀ t ∈ turns, overlapLen word_start word_end t = 0) :
    (∀ i, ∀ hi : i < turns.length,
      containsMid ((word_start + word_end) / 2) (turns.get ⟨i, hi⟩) = true →
      (∀ j, ∀ hj : j < turns.length, j < i →
        containsMid ((word_start + word_end) / 2) (turns.get ⟨j, hj⟩) = false) →
      _find_speaker turns word_start word_end = (turns.get ⟨i, hi⟩).speaker) ∧
    ((∀ t ∈ turns, containsMid ((word_start + word_end) / 2) t = false) →
      _find_speaker turns word_start word_end = "Unknown") := by
  constructor
  · intro i hi hp hfirst
    rw [findSpeaker_zero turns word_start word_end h,
      find?_first (containsMid ((word_start + word_end) / 2)) turns i hi hp hfirst]
  · intro hnone
    rw [findSpeaker_zero turns word_start word_end h,
      List.find?_eq_none.mpr (fun t ht => by simp [hnone t ht])]

/-- Witness for C5: a zero-length word at `t = 0.5` with turn `A[0, 1]`
attributes to `A`; the gap word `[5.0, 5.5]` against `A[0, 1]`,
`B[10, 11]` attributes `"Unknown"`. -/
theorem C5_midpoint_fallback_witness :
    _find_speaker [⟨"A", 0, 1⟩] (1/2) (1/2) = "A" ∧
    _find_speaker [⟨"A", 0, 1⟩, ⟨"B", 10, 11⟩] 5 (11/2) = "Unknown" := by
  constructor
  · have h : ∀ t ∈ [(⟨"A", 0, 1⟩ : SpeakerTurn)], overlapLen (1/2) (1/2) t = 0 := by
      intro t ht
      simp only [List.mem_singleton] at ht
      subst ht
      norm_num [overlapLen, min_def, max_def]
    have := (C5_midpoint_fallback [⟨"A", 0, 1⟩] (1/2) (1/2) h).1 0 (by simp)
      (by simp [containsMid]; norm_num)
      (by intro j hj hj0; omega)
    simpa using this
  · have h : ∀ t ∈ [(⟨"A", 0, 1⟩ : SpeakerTurn), ⟨"B", 10, 11⟩],
        overlapLen 5 (11/2) t = 0 := by
      intro t ht
      rcases List.mem_cons.mp ht with rfl | ht'
      · norm_num [overlapLen, min_def, max_def]
      · simp only [List.mem_singleton] at ht'
        subst ht'
        norm_num [overlapLen, min_def, max_def]
    refine (C5_midpoint_fallback _ 5 (11/2) h).2 ?_
    intro t ht
    rcases List.mem_cons.mp ht with rfl | ht'
    · simp [containsMid]; norm_num
    · simp only [List.mem_singleton] at ht'
      subst ht'
      simp [containsMid]; norm_num

/-- C6: `align` on an empty word list returns the empty sequence for every
turn list; on a non-empty word list and empty turn list it returns exactly
one segment labelled `"Speaker"` whose text is the whitespace-preserving
concatenation of all word texts trimmed at the ends, spanning the first
word's start to the last word's end. -/
theorem C6_align_degenerate :
    (∀ turns : List SpeakerTurn, align [] turns = []) ∧
    (∀ (w : Word) (ws : List Word),
      align (w :: ws) [] =
        [⟨"Speaker", pyStripStr (pyJoin ((w :: ws).map Word.text)),
          w.start, (ws.getLastD w).«end»⟩]) :=
  ⟨fun _ => rfl, fun _ _ => rfl⟩

/-- C7: the run-merging loop emits exactly one segment per maximal run of
consecutive same-speaker attributed words (`splitRuns` computes those
runs: it partitions the list, each run has a constant speaker, and
adjacent runs have different speakers); each segment is the run's speaker,
the verbatim concatenation of the run's word texts trimmed only at
finalization, the run's first word's start and its last word's end. -/
theorem C7_run_merging :
    (∀ aws : List (Word × String), mergeRuns aws = (splitRuns aws).map runSeg) ∧
    (∀ aws : List (Word × String), ((splitRuns aws).map (fun p => p.1 :: p.2)).flatten = aws) ∧
    (∀ aws : List (Word × String), ∀ p ∈ splitRuns aws, ∀ a ∈ p.1 :: p.2, a.2 = p.1.2) ∧
    (∀ aws : List (Word × String), List.Chain' (fun p q => p.1.2 ≠ q.1.2) (splitRuns aws)) :=
  ⟨mergeRuns_eq_runs, splitRuns_flatten, splitRuns_run_speaker, splitRuns_chain⟩

/-- Witness for C7: speaker alternation `A,B,A` yields three distinct
segments in order `A,B,A`. -/
theorem C7_run_merging_witness :
    mergeRuns [(⟨" one", 0, 1⟩, "A"), (⟨" two", 1, 2⟩, "B"), (⟨" three", 2, 3⟩, "A")] =
      (splitRuns [(⟨" one", 0, 1⟩, "A"), (⟨" two", 1, 2⟩, "B"),
        (⟨" three", 2, 3⟩, "A")]).map runSeg ∧
    mergeRuns [(⟨" one", 0, 1⟩, "A"), (⟨" two", 1, 2⟩, "B"), (⟨" three", 2, 3⟩, "A")] =
      [⟨"A", "one", 0, 1⟩, ⟨"B", "two", 1, 2⟩, ⟨"A", "three", 2, 3⟩] :=
  ⟨C7_run_merging.1 _, by decide⟩

/-- C8: for non-empty words ordered by start time and non-empty turns,
`align` returns segments whose start values are non-decreasing (each
segment starts at the first word of its run, and runs follow word
order). -/
theorem C8_sorted_output (words : List Word) (turns : List SpeakerTurn)
    (hw : words ≠ []) (ht : turns ≠ [])
    (hsorted : List.Pairwise (fun a b : Word => a.start ≤ b.start) words) :
    List.Pairwise (fun s1 s2 : Segment => s1.start ≤ s2.start) (align words turns) := by
  cases words with
  | nil => exact absurd rfl hw
  | cons w ws =>
    cases turns with
    | nil => exact absurd rfl ht
    | cons t ts =>
      show List.Pairwise _ (mergeRuns ((w :: ws).map
        (fun wd => (wd, _find_speaker (t :: ts) wd.start wd.«end»))))
      rw [mergeRuns_eq_runs]
      have hpair : List.Pairwise (fun a b : Word × String => a.1.start ≤ b.1.start)
          ((w :: ws).map (fun wd => (wd, _find_speaker (t :: ts) wd.start wd.«end»))) := by
        rw [List.pairwise_map]
        exact hsorted
      have hheads : List.Pairwise (fun a b : Word × String => a.1.start ≤ b.1.start)
          ((splitRuns ((w :: ws).map
            (fun wd => (wd, _find_speaker (t :: ts) wd.start wd.«end»)))).map (fun p => p.1)) :=
        List.Pairwise.sublist (List.Sublist.map _ (List.Sublist.refl _)) hpair |>.sublist
          (splitRuns_heads_sublist _) |> id
      rw [List.pairwise_map]
      rw [List.pairwise_map] at hheads
      exact hheads

/-- Witness for C8: two time-ordered words against one turn. -/
theorem C8_sorted_output_witness :
    ([(⟨" a", 0, 1⟩ : Word), ⟨" b", 1, 2⟩] ≠ []) ∧
    ([(⟨"A", 0, 2⟩ : SpeakerTurn)] ≠ []) ∧
    List.Pairwise (fun a b : Word => a.start ≤ b.start) [(⟨" a", 0, 1⟩ : Word), ⟨" b", 1, 2⟩] ∧
    List.Pairwise (fun s1 s2 : Segment => s1.start ≤ s2.start)
      (align [⟨" a", 0, 1⟩, ⟨" b", 1, 2⟩] [⟨"A", 0, 2⟩]) :=
  ⟨by decide, by decide, by decide,
    C8_sorted_output _ _ (by decide) (by decide) (by decide)⟩

/-- C10: with non-empty words and non-empty turns, every segment `align`
returns carries either the speaker of some input turn or the sentinel
`"Unknown"`. -/
theorem C10_speaker_labels (words : List Word) (turns : List SpeakerTurn)
    (hw : words ≠ []) (ht : turns ≠ []) :
    ∀ seg ∈ align words turns,
      seg.speaker = "Unknown" ∨ ∃ t ∈ turns, seg.speaker = t.speaker := by
  cases words with
  | nil => exact absurd rfl hw
  | cons w ws =>
    cases turns with
    | nil => exact absurd rfl ht
    | cons t ts =>
      intro seg hseg
      have halign : align (w :: ws) (t :: ts) = mergeRuns ((w :: ws).map
          (fun wd => (wd, _find_speaker (t :: ts) wd.start wd.«end»))) := rfl
      rw [halign, mergeRuns_eq_runs] at hseg
      obtain ⟨p, hp, rfl⟩ := List.mem_map.mp hseg
      have hin : p.1 ∈ (w :: ws).map
          (fun wd => (wd, _find_speaker (t :: ts) wd.start wd.«end»)) :=
        (splitRuns_heads_sublist _).subset (List.mem_map_of_mem _ hp)
      obtain ⟨wd, _, heq⟩ := List.mem_map.mp hin
      have hspk : (runSeg p).speaker = _find_speaker (t :: ts) wd.start wd.«end» := by
        show p.1.2 = _
        rw [← heq]
      rw [hspk]
      exact findSpeaker_mem (t :: ts) wd.start wd.«end»

/-- Witness for C10. -/
theorem C10_speaker_labels_witness :
    ([(⟨" a", 0, 1⟩ : Word), ⟨" b", 5, 6⟩] ≠ []) ∧
    ([(⟨"A", 0, 2⟩ : SpeakerTurn)] ≠ []) ∧
    ∀ seg ∈ align [⟨" a", 0, 1⟩, ⟨" b", 5, 6⟩] [⟨"A", 0, 2⟩],
      seg.speaker = "Unknown" ∨ ∃ t ∈ [(⟨"A", 0, 2⟩ : SpeakerTurn)], seg.speaker = t.speaker :=
  ⟨by decide, by decide, C10_speaker_labels _ _ (by decide) (by decide)⟩

/-! ## Character-level lemmas for the codecs -/

theorem splitChar_cons (sep c : Char) (l : List Char) :
    splitChar sep (c :: l) =
      match splitChar sep l with
      | [] => [[c]]
      | a :: as => if c = sep then [] :: a :: as else (c :: a) :: as := rfl

theorem splitChar_ne_nil (sep : Char) (l : List Char) : splitChar sep l ≠ [] := by
  induction l with
  | nil => simp [splitChar]
  | cons c l' ih =>
    rw [splitChar_cons]
    rcases hs : splitChar sep l' with _ | ⟨a, as⟩
    · simp
    · by_cases hc : c = sep <;> simp [hc]

theorem splitChar_append (sep : Char) (u v : List Char) :
    splitChar sep (u ++ sep :: v) = splitChar sep u ++ splitChar sep v := by
  induction u with
  | nil =>
    rw [List.nil_append, splitChar_cons]
    rcases hs : splitChar sep v with _ | ⟨a, as⟩
    · exact absurd hs (splitChar_ne_nil sep v)
    · simp [splitChar]
  | cons c u' ih =>
    rw [List.cons_append, splitChar_cons, ih, splitChar_cons]
    rcases hs : splitChar sep u' with _ | ⟨a, as⟩
    · exact absurd hs (splitChar_ne_nil sep u')
    · by_cases hc : c = sep <;> simp [hc]

theorem splitChar_sepFree (sep : Char) (l : List Char) (h : sep ∉ l) :
    splitChar sep l = [l] := by
  induction l with
  | nil => rfl
  | cons c l' ih =>
    rw [splitChar_cons, ih (fun hm => h (List.mem_cons_of_mem _ hm))]
    have hc : ¬ c = sep := fun hc => h (by simp [hc])
    simp [hc]

theorem joinWith_cons_head (sep c : Char) (a : List Char) (as : List (List Char)) :
    joinWith [sep] ((c :: a) :: as) = c :: joinWith [sep] (a :: as) := by
  cases as with
  | nil => rfl
  | cons b bs => simp [joinWith]

theorem joinWith_splitChar (sep : Char) (l : List Char) :
    joinWith [sep] (splitChar sep l) = l := by
  induction l with
  | nil => rfl
  | cons c l' ih =>
    rw [splitChar_cons]
    rcases hs : splitChar sep l' with _ | ⟨a, as⟩
    · exact absurd hs (splitChar_ne_nil sep l')
    · rw [hs] at ih
      by_cases hc : c = sep
      · simp only [if_pos hc]
        subst hc
        show [] ++ [c] ++ joinWith [c] (a :: as) = c :: l'
        rw [← ih]; rfl
      · simp only [if_neg hc]
        rw [joinWith_cons_head, ih]

theorem joinWith_append_of_ne_nil (sep : List Char) (ls1 ls2 : List (List Char))
    (h1 : ls1 ≠ []) (h2 : ls2 ≠ []) :
    joinWith sep (ls1 ++ ls2) = joinWith sep ls1 ++ sep ++ joinWith sep ls2 := by
  induction ls1 with
  | nil => exact absurd rfl h1
  | cons x xs ih =>
    cases xs with
    | nil =>
      cases ls2 with
      | nil => exact absurd rfl h2
      | cons y ys => simp [joinWith]
    | cons x2 xs' =>
      have := ih (by simp)
      show joinWith sep (x :: (x2 :: xs') ++ ls2) = _
      rw [show (x :: (x2 :: xs')) ++ ls2 = x :: ((x2 :: xs') ++ ls2) from rfl]
      have hne : (x2 :: xs') ++ ls2 ≠ [] := by simp
      rcases hshape : (x2 :: xs') ++ ls2 with _ | ⟨z, zs⟩
      · exact absurd hshape hne
      · rw [show joinWith sep (x :: z :: zs) = x ++ sep ++ joinWith sep (z :: zs) from rfl]
        rw [← hshape, this]
        simp [joinWith, List.append_assoc]

theorem dropWhile_append_of_all {α : Type} {p : α → Bool} (u v : List α)
    (h : ∀ c ∈ u, p c = true) :
    (u ++ v).dropWhile p = v.dropWhile p := by
  induction u with
  | nil => rfl
  | cons c u' ih =>
    rw [List.cons_append, List.dropWhile_cons_of_pos (h c (by simp))]
    exact ih (fun c' hc' => h c' (by simp [hc']))

theorem dropWhile_append_of_ne_nil {α : Type} {p : α → Bool} (u v : List α)
    (h : u.dropWhile p ≠ []) :
    (u ++ v).dropWhile p = u.dropWhile p ++ v := by
  induction u with
  | nil => exact absurd rfl h
  | cons c u' ih =>
    by_cases hc : p c = true
    · rw [List.cons_append, List.dropWhile_cons_of_pos hc, List.dropWhile_cons_of_pos hc]
      rw [List.dropWhile_cons_of_pos hc] at h
      exact ih h
    · have hc' : p c = false := by simpa using hc
      rw [List.cons_append, List.dropWhile_cons_of_neg (by simp [hc']),
        List.dropWhile_cons_of_neg (by simp [hc'])]
      rfl

/-- Trailing strip: drops trailing characters satisfying `pyIsSpace`. -/
def dropTrail (l : List Char) : List Char :=
  (l.reverse.dropWhile pyIsSpace).reverse

theorem pyStrip_eq_dropTrail_dropWhile (l : List Char) :
    pyStrip l = dropTrail (l.dropWhile pyIsSpace) := rfl

theorem dropTrail_append_spaces (l sp : List Char) (h : ∀ c ∈ sp, pyIsSpace c = true) :
    dropTrail (l ++ sp) = dropTrail l := by
  show ((l ++ sp).reverse.dropWhile pyIsSpace).reverse = _
  rw [List.reverse_append, dropWhile_append_of_all sp.reverse l.reverse
    (fun c hc => h c (List.mem_reverse.mp hc))]
  rfl

theorem pyStrip_append_spaces (l sp : List Char) (h : ∀ c ∈ sp, pyIsSpace c = true) :
    pyStrip (l ++ sp) = pyStrip l := by
  rw [pyStrip_eq_dropTrail_dropWhile, pyStrip_eq_dropTrail_dropWhile]
  by_cases hl : l.dropWhile pyIsSpace = []
  · rw [dropWhile_append_of_all l sp
      (fun c hc => by
        have := List.dropWhile_eq_nil_iff.mp hl
        exact this c hc), hl]
    rw [show dropTrail [] = [] from rfl]
    rw [List.dropWhile_eq_nil_iff.mpr (fun c hc => h c hc)]
    rfl
  · rw [dropWhile_append_of_ne_nil l sp hl, dropTrail_append_spaces _ sp h]

theorem pyStrip_spaces_append (sp l : List Char) (h : ∀ c ∈ sp, pyIsSpace c = true) :
    pyStrip (sp ++ l) = pyStrip l := by
  rw [pyStrip_eq_dropTrail_dropWhile, pyStrip_eq_dropTrail_dropWhile,
    dropWhile_append_of_all sp l h]

/-! ## Decimal digits -/

theorem digitChar_isDigit (d : ℕ) (h : d < 10) : (digitChar d).isDigit = true := by
  interval_cases d <;> decide

theorem digitChar_toNat (d : ℕ) (h : d < 10) : (digitChar d).toNat = 48 + d := by
  interval_cases d <;> decide

theorem natToDecimal_all_digits (n : ℕ) :
    ∀ c ∈ natToDecimal n, c.isDigit = true := by
  intro c hc
  rw [natToDecimal] at hc
  by_cases h : n = 0
  · rw [if_pos h] at hc
    simp at hc
    subst hc; decide
  · rw [if_neg h, natDecDigits_eq_digits] at hc
    rw [List.mem_reverse] at hc
    obtain ⟨d, hd, rfl⟩ := List.mem_map.mp hc
    exact digitChar_isDigit d (Nat.digits_lt_base (by norm_num) hd)

theorem parseNatDigits_cons (c : Char) (l : List Char) (a : ℕ) :
    (c :: l).foldl (fun a c => 10 * a + (c.toNat - 48)) a =
      l.foldl (fun a c => 10 * a + (c.toNat - 48)) (10 * a + (c.toNat - 48)) := rfl

theorem parseNatDigits_append (l1 l2 : List Char) (a : ℕ) :
    (l1 ++ l2).foldl (fun a c => 10 * a + (c.toNat - 48)) a =
      l2.foldl (fun a c => 10 * a + (c.toNat - 48))
        (l1.foldl (fun a c => 10 * a + (c.toNat - 48)) a) := by
  rw [List.foldl_append]

theorem parseNatDigits_digits (ds : List ℕ) (h : ∀ d ∈ ds, d < 10) :
    ∀ a : ℕ,
      ((ds.map digitChar).reverse).foldl (fun a c => 10 * a + (c.toNat - 48)) a =
        a * 10 ^ ds.length + Nat.ofDigits 10 ds := by
  induction ds with
  | nil => intro a; simp [Nat.ofDigits]
  | cons d ds' ih =>
    intro a
    rw [List.map_cons, List.reverse_cons, parseNatDigits_append]
    rw [ih (fun x hx => h x (by simp [hx])) a]
    show 10 * (a * 10 ^ ds'.length + Nat.ofDigits 10 ds') + ((digitChar d).toNat - 48) = _
    rw [digitChar_toNat d (h d (by simp))]
    have hd48 : 48 + d - 48 = d := by omega
    rw [hd48, Nat.ofDigits_cons, List.length_cons, pow_succ]
    ring

theorem parseNatDigits_natToDecimal (n : ℕ) :
    parseNatDigits (natToDecimal n) = n := by
  rw [natToDecimal, parseNatDigits]
  by_cases h : n = 0
  · subst h; decide
  · rw [if_neg h, natDecDigits_eq_digits]
    rw [parseNatDigits_digits (Nat.digits 10 n) (fun d hd => Nat.digits_lt_base (by norm_num) hd) 0]
    simp [Nat.ofDigits_digits]

theorem parseNatDigits_leading_zero (l : List Char) :
    parseNatDigits ('0' :: l) = parseNatDigits l := by
  rw [parseNatDigits, parseNatDigits, parseNatDigits_cons]
  rw [show 10 * 0 + ('0'.toNat - 48) = 0 from by decide]

theorem natToDecimal_ne_nil (n : ℕ) : natToDecimal n ≠ [] := by
  rw [natToDecimal]
  by_cases h : n = 0
  · simp [h]
  · rw [if_neg h, natDecDigits_eq_digits]
    simp [Nat.digits_ne_nil_iff_ne_zero.mpr h]

theorem pad02_all_digits (l : List Char) (h : ∀ c ∈ l, c.isDigit = true) :
    ∀ c ∈ pad02 l, c.isDigit = true := by
  intro c hc
  rw [pad02] at hc
  by_cases hl : l.length < 2
  · rw [if_pos hl] at hc
    rcases List.mem_cons.mp hc with rfl | hc'
    · decide
    · exact h c hc'
  · rw [if_neg hl] at hc
    exact h c hc

theorem pad02_ne_nil (l : List Char) : pad02 l ≠ [] := by
  rw [pad02]
  by_cases hl : l.length < 2
  · simp [hl]
  · rw [if_neg hl]
    intro hnil
    rw [hnil] at hl
    simp at hl

theorem parseNatDigits_pad02 (l : List Char) :
    parseNatDigits (pad02 l) = parseNatDigits l := by
  rw [pad02]
  by_cases hl : l.length < 2
  · rw [if_pos hl, parseNatDigits_leading_zero]
  · rw [if_neg hl]

/-- Spaces are not digits. -/
theorem pyIsSpace_not_digit (c : Char) (h : c.isDigit = true) : pyIsSpace c = false := by
  by_contra hcontra
  have hs : pyIsSpace c = true := by
    cases hps : pyIsSpace c
    · exact absurd hps hcontra
    · rfl
  have hmem : c ∈ pySpaceChars := by
    simpa [pyIsSpace, List.contains_iff_exists_mem_beq] using hs
  have : ∀ c' ∈ pySpaceChars, c'.isDigit = false := by decide
  rw [this c hmem] at h
  exact Bool.false_ne_true h

/-! ## `edit._parse_time` (`edit.py` lines 44-47)

Python exceptions are modelled with `Except PyExc`: `int()` on a
malformed string raises `ValueError`, and an out-of-range list index
raises `IndexError`. -/

inductive PyExc where
  | valueError
  | indexError
  deriving Repr, DecidableEq

/-- Helper for `pyInt`: the string after the optional sign must be a
non-empty run of digits. -/
def pyIntDigits (sign : Int) (ds : List Char) : Except PyExc Int :=
  if ds ≠ [] ∧ ds.all Char.isDigit then .ok (sign * parseNatDigits ds) else .error .valueError

/-- Python `int(s)` on a string: optional surrounding whitespace, optional
sign, then a non-empty digit run (ASCII digits; underscores and non-ASCII
digits are not modelled). -/
def pyInt (l : List Char) : Except PyExc Int :=
  match pyStrip l with
  | [] => .error .valueError
  | c :: r =>
    if c = '-' then pyIntDigits (-1) r
    else if c = '+' then pyIntDigits 1 r
    else pyIntDigits 1 (c :: r)

/-- `edit._parse_time(ts)`: `parts = ts.split(":")`, then
`int(parts[0]) * 60 + int(parts[1])` — evaluated left to right, so
`int(parts[0])` can raise `ValueError` before `parts[1]` can raise
`IndexError`. -/
def _parse_time (ts : List Char) : Except PyExc Int :=
  match splitChar ':' ts with
  | [] => .error .indexError
  | p0 :: rest => do
    let a ← pyInt p0
    match rest with
    | [] => .error .indexError
    | p1 :: _ => do
      let b ← pyInt p1
      pure (a * 60 + b)

/-- C4 (code evaluation): the four timestamp strings the spec and the
repository's own tests (`tests/test_edit.py::TestParseTime`) require to
raise `InvalidTimestamp` actually behave differently: `"1:2:3"` is
accepted silently with value 62, `"123"` raises `IndexError`, and only
`"a:b"` and `""` raise `ValueError` (without the `"Invalid timestamp"`
message the tests match on). -/
theorem C4_parse_time_behaviour :
    _parse_time "1:2:3".data = .ok 62 ∧
    _parse_time "123".data = .error .indexError ∧
    _parse_time "a:b".data = .error .valueError ∧
    _parse_time "".data = .error .valueError := by
  refine ⟨?_, ?_, ?_, ?_⟩ <;> rfl

/-! ## `fmt._ftime` and `edit.to_editable` -/

/-- `fmt._ftime(seconds)`: `m, s = divmod(int(seconds), 60)` followed by
`f"{m:02d}:{s:02d}"`.  Python `divmod` on ints is floor division. -/
def ftimeChars (seconds : ℚ) : List Char :=
  pad02 (intToDecimal (Int.fdiv (pyTrunc seconds) 60)) ++
    ':' :: pad02 (intToDecimal (Int.fmod (pyTrunc seconds) 60))

/-- `fmt._ftime` at the `String` level. -/
def _ftime (seconds : ℚ) : String :=
  String.mk (ftimeChars seconds)

/-- The header line of one `to_editable` block:
`f"[{_ftime(s.start)} → {_ftime(s.end)}] {s.speaker}:"`. -/
def headerChars (s : Segment) : List Char :=
  '[' :: ftimeChars s.start ++ ' ' :: '→' :: ' ' :: ftimeChars s.«end» ++
    ']' :: ' ' :: s.speaker.data ++ [':']

/-- One block of `edit.to_editable`: `f"{header}\n{s.text}"`. -/
def blockChars (s : Segment) : List Char :=
  headerChars s ++ '\n' :: s.text.data

/-- `edit.to_editable(segments)`: blocks joined by a blank line, plus a
trailing newline (`"\n\n".join(blocks) + "\n"`). -/
def to_editable (segments : List Segment) : String :=
  String.mk (joinWith ['\n', '\n'] (segments.map blockChars) ++ ['\n'])

/-! ## `edit.from_editable` (`edit.py` lines 39-81)

The header regex `^\[(\d+:\d+)\s*→\s*(\d+:\d+)\]\s*(.+?)\s*:$` is matched
deterministically: literal `[`, digits, `:`, digits, spaces, `→`, spaces,
digits, `:`, digits, `]`, then the tail must end in `:` with at least one
character in between; the lazy group 3 together with the surrounding
`\s*` and the subsequent `.strip()` make the recovered label exactly the
stripped text between `]` and the final `:`.  The two time groups are fed
through `_parse_time`, which on a `\d+:\d+` match always succeeds with
`minutes * 60 + seconds` (lemma `parse_time_on_match` below). -/

/-- Maximal leading digit run and the remainder (`\d+` matching). -/
def takeDigits : List Char → List Char × List Char
  | [] => ([], [])
  | c :: rest =>
    if c.isDigit then
      let p := takeDigits rest
      (c :: p.1, p.2)
    else ([], c :: rest)

/-- `\d+`: at least one digit. -/
def digits1 (l : List Char) : Option (List Char × List Char) :=
  let p := takeDigits l
  if p.1 = [] then none else some p

/-- Consume one expected character. -/
def expectChar (c : Char) : List Char → Option (List Char)
  | [] => none
  | c' :: r => if c' = c then some r else none

/-- `\s*` (Python `re` whitespace, same table as `str.isspace`). -/
def skipPySpaces (l : List Char) : List Char := l.dropWhile pyIsSpace

/-- Deterministic match of the `_HEADER` regex against one line.  On
success returns the two times in seconds (`_parse_time` applied to the
`\d+:\d+` groups) and the stripped label (`m.group(3).strip()`). -/
def headerParse (l : List Char) : Option (ℕ × ℕ × List Char) :=
  (expectChar '[' l).bind fun r0 =>
  (digits1 r0).bind fun p1 =>
  (expectChar ':' p1.2).bind fun r2 =>
  (digits1 r2).bind fun p2 =>
  (expectChar '→' (skipPySpaces p2.2)).bind fun r4 =>
  (digits1 (skipPySpaces r4)).bind fun p3 =>
  (expectChar ':' p3.2).bind fun r6 =>
  (digits1 r6).bind fun p4 =>
  (expectChar ']' p4.2).bind fun rest =>
  if rest.getLast? = some ':' ∧ rest.dropLast ≠ [] then
    some (parseNatDigits p1.1 * 60 + parseNatDigits p2.1,
          parseNatDigits p3.1 * 60 + parseNatDigits p4.1,
          pyStrip rest.dropLast)
  else none

/-- Close a block: the body is
`"\n".join(lines[start_i + 1 : end_i]).strip()` of the body lines (in
order), the times are `float(_parse_time(...))` of the groups. -/
def closeBlock (h : ℕ × ℕ × List Char) (body : List (List Char)) : Segment :=
  ⟨String.mk h.2.2, String.mk (pyStrip (joinWith ['\n'] body)),
    (h.1 : ℚ), (h.2.1 : ℚ)⟩

/-- One line of the `from_editable` scan.  State: closed segments plus the
open block (header and reversed body lines); a non-header line before the
first header is skipped. -/
def feStep (st : List Segment × Option ((ℕ × ℕ × List Char) × List (List Char)))
    (line : List Char) :
    List Segment × Option ((ℕ × ℕ × List Char) × List (List Char)) :=
  match headerParse line with
  | some h =>
    match st.2 with
    | some ob => (st.1 ++ [closeBlock ob.1 ob.2.reverse], some (h, []))
    | none => (st.1, some (h, []))
  | none =>
    match st.2 with
    | some ob => (st.1, some (ob.1, line :: ob.2))
    | none => st

/-- `edit.from_editable(text)`: split into lines, locate header lines, and
give each header the body up to the next header (or end of input). -/
def from_editable (text : String) : List Segment :=
  let st := (splitChar '\n' text.data).foldl feStep ([], none)
  st.1 ++ (match st.2 with | some ob => [closeBlock ob.1 ob.2.reverse] | none => [])

/-! ## Parser-piece lemmas -/

theorem expectChar_eq_some (c : Char) (l r : List Char) :
    expectChar c l = some r ↔ l = c :: r := by
  cases l with
  | nil => simp [expectChar]
  | cons c' l' =>
    by_cases hc : c' = c
    · subst hc; simp [expectChar]
    · simp [expectChar, hc]

theorem expectChar_cons (c : Char) (r : List Char) :
    expectChar c (c :: r) = some r := by
  simp [expectChar]

theorem takeDigits_eq (l : List Char) :
    takeDigits l = (l.takeWhile Char.isDigit, l.dropWhile Char.isDigit) := by
  induction l with
  | nil => rfl
  | cons c l' ih =>
    rw [takeDigits]
    by_cases hc : c.isDigit = true
    · rw [if_pos hc, ih, List.takeWhile_cons_of_pos hc, List.dropWhile_cons_of_pos hc]
    · rw [if_neg hc, List.takeWhile_cons_of_neg hc, List.dropWhile_cons_of_neg hc]

theorem takeDigits_exact (d r : List Char) (hd : ∀ c ∈ d, c.isDigit = true)
    (hr : ∀ c, r.head? = some c → c.isDigit = false) :
    takeDigits (d ++ r) = (d, r) := by
  induction d with
  | nil =>
    cases r with
    | nil => rfl
    | cons c r' =>
      rw [List.nil_append, takeDigits, if_neg (by simp [hr c rfl])]
  | cons c d' ih =>
    rw [List.cons_append, takeDigits, if_pos (hd c (by simp)),
      ih (fun c' hc' => hd c' (by simp [hc']))]

theorem digits1_exact (d r : List Char) (hne : d ≠ []) (hd : ∀ c ∈ d, c.isDigit = true)
    (hr : ∀ c, r.head? = some c → c.isDigit = false) :
    digits1 (d ++ r) = some (d, r) := by
  rw [digits1, takeDigits_exact d r hd hr]
  simp [hne]

theorem spaceChars_not_digit : ∀ c, pyIsSpace c = true → c.isDigit = false := by
  intro c h
  have hmem : c ∈ pySpaceChars := by
    simpa [pyIsSpace, List.contains_iff_exists_mem_beq] using h
  have hall : ∀ c' ∈ pySpaceChars, c'.isDigit = false := by decide
  exact hall c hmem

theorem skipPySpaces_exact (w r : List Char) (hw : ∀ c ∈ w, pyIsSpace c = true)
    (hr : ∀ c, r.head? = some c → pyIsSpace c = false) :
    skipPySpaces (w ++ r) = r := by
  rw [skipPySpaces, dropWhile_append_of_all w r hw]
  cases r with
  | nil => rfl
  | cons c r' => exact List.dropWhile_cons_of_neg (by simp [hr c rfl])

theorem getLast?_some_decomp {α : Type} (l : List α) (c : α) (h : l.getLast? = some c) :
    l = l.dropLast ++ [c] := by
  cases l with
  | nil => simp at h
  | cons x xs =>
    have hne : x :: xs ≠ [] := by simp
    rw [List.getLast?_eq_getLast _ hne] at h
    injection h with h1
    rw [← h1]
    exact (List.dropLast_append_getLast hne).symm

/-- Building a header line from its parts always parses, recovering the
`_parse_time` values of the two groups and the stripped label. -/
theorem headerParse_build (d1 d2 d3 d4 w1 w2 mid : List Char)
    (h1 : d1 ≠ []) (ha1 : ∀ c ∈ d1, c.isDigit = true)
    (h2 : d2 ≠ []) (ha2 : ∀ c ∈ d2, c.isDigit = true)
    (h3 : d3 ≠ []) (ha3 : ∀ c ∈ d3, c.isDigit = true)
    (h4 : d4 ≠ []) (ha4 : ∀ c ∈ d4, c.isDigit = true)
    (hw1 : ∀ c ∈ w1, pyIsSpace c = true) (hw2 : ∀ c ∈ w2, pyIsSpace c = true)
    (hmid : mid ≠ []) :
    headerParse ('[' :: (d1 ++ ':' :: (d2 ++ (w1 ++ '→' :: (w2 ++ (d3 ++ ':' ::
        (d4 ++ ']' :: (mid ++ [':'])))))))) =
      some (parseNatDigits d1 * 60 + parseNatDigits d2,
            parseNatDigits d3 * 60 + parseNatDigits d4,
            pyStrip mid) := by
  rw [headerParse]
  simp only [expectChar_cons, Option.some_bind]
  rw [digits1_exact d1 (':' :: (d2 ++ (w1 ++ '→' :: (w2 ++ (d3 ++ ':' ::
      (d4 ++ ']' :: (mid ++ [':']))))))) h1 ha1
    (by intro c hc; simp at hc; subst hc; decide)]
  simp only [Option.some_bind, expectChar_cons]
  rw [digits1_exact d2 (w1 ++ '→' :: (w2 ++ (d3 ++ ':' :: (d4 ++ ']' :: (mid ++ [':'])))))
    h2 ha2
    (by
      intro c hc
      cases w1 with
      | nil => simp at hc; subst hc; decide
      | cons a w' =>
        simp at hc
        subst hc
        exact spaceChars_not_digit a (hw1 a (by simp)))]
  simp only [Option.some_bind]
  rw [skipPySpaces_exact w1 ('→' :: (w2 ++ (d3 ++ ':' :: (d4 ++ ']' :: (mid ++ [':'])))))
    hw1 (by intro c hc; simp at hc; subst hc; decide)]
  simp only [expectChar_cons, Option.some_bind]
  rw [skipPySpaces_exact w2 (d3 ++ ':' :: (d4 ++ ']' :: (mid ++ [':']))) hw2
    (by
      intro c hc
      cases d3 with
      | nil => exact absurd rfl h3
      | cons a d' =>
        simp at hc
        subst hc
        exact pyIsSpace_not_digit a (ha3 a (by simp)))]
  rw [digits1_exact d3 (':' :: (d4 ++ ']' :: (mid ++ [':']))) h3 ha3
    (by intro c hc; simp at hc; subst hc; decide)]
  simp only [Option.some_bind, expectChar_cons]
  rw [digits1_exact d4 (']' :: (mid ++ [':'])) h4 ha4
    (by intro c hc; simp at hc; subst hc; decide)]
  simp only [Option.some_bind, expectChar_cons]
  rw [if_pos ⟨List.getLast?_concat mid, by simp [List.dropLast_concat, hmid]⟩]
  rw [List.dropLast_concat]

/-- Declarative reading of the header regex
`^\[(\d+:\d+)\s*→\s*(\d+:\d+)\]\s*(.+?)\s*:$`: a line matches exactly
when it is `[`, digits, `:`, digits, whitespace, `→`, whitespace, digits,
`:`, digits, `]`, then at least one character, then a final `:` ending the
line.  (`\s*(.+?)\s*:` with a lazy non-empty group places no constraint on
the middle text beyond non-emptiness.) -/
def HeaderMatches (l : List Char) : Prop :=
  ∃ d1 d2 d3 d4 w1 w2 mid : List Char,
    l = '[' :: (d1 ++ ':' :: (d2 ++ (w1 ++ '→' :: (w2 ++ (d3 ++ ':' ::
      (d4 ++ ']' :: (mid ++ [':']))))))) ∧
    d1 ≠ [] ∧ (∀ c ∈ d1, c.isDigit = true) ∧
    d2 ≠ [] ∧ (∀ c ∈ d2, c.isDigit = true) ∧
    d3 ≠ [] ∧ (∀ c ∈ d3, c.isDigit = true) ∧
    d4 ≠ [] ∧ (∀ c ∈ d4, c.isDigit = true) ∧
    (∀ c ∈ w1, pyIsSpace c = true) ∧ (∀ c ∈ w2, pyIsSpace c = true) ∧
    mid ≠ []

theorem digits1_eq_some (l : List Char) (p : List Char × List Char) :
    digits1 l = some p ↔
      l.takeWhile Char.isDigit ≠ [] ∧
        p = (l.takeWhile Char.isDigit, l.dropWhile Char.isDigit) := by
  rw [digits1, takeDigits_eq]
  by_cases h : l.takeWhile Char.isDigit = []
  · simp [h]
  · simp [h, eq_comm]

/-- Full inversion of `headerParse`: any successful parse exhibits the
regex decomposition, the parsed times are `_parse_time` of the groups, and
the label is the stripped text between `]` and the final `:`. -/
theorem headerParse_some_decomp (l : List Char) (t1 t2 : ℕ) (lab : List Char)
    (h : headerParse l = some (t1, t2, lab)) :
    ∃ d1 d2 d3 d4 w1 w2 mid : List Char,
      l = '[' :: (d1 ++ ':' :: (d2 ++ (w1 ++ '→' :: (w2 ++ (d3 ++ ':' ::
        (d4 ++ ']' :: (mid ++ [':']))))))) ∧
      d1 ≠ [] ∧ (∀ c ∈ d1, c.isDigit = true) ∧
      d2 ≠ [] ∧ (∀ c ∈ d2, c.isDigit = true) ∧
      d3 ≠ [] ∧ (∀ c ∈ d3, c.isDigit = true) ∧
      d4 ≠ [] ∧ (∀ c ∈ d4, c.isDigit = true) ∧
      (∀ c ∈ w1, pyIsSpace c = true) ∧ (∀ c ∈ w2, pyIsSpace c = true) ∧
      mid ≠ [] ∧
      t1 = parseNatDigits d1 * 60 + parseNatDigits d2 ∧
      t2 = parseNatDigits d3 * 60 + parseNatDigits d4 ∧
      lab = pyStrip mid := by
  rw [headerParse] at h
  simp only [Option.bind_eq_some] at h
  obtain ⟨r0, hr0, p1, hp1, r2, hr2, p2, hp2, r4, hr4, p3, hp3, r6, hr6, p4, hp4,
    rest, hrest, hfinal⟩ := h
  rw [expectChar_eq_some] at hr0 hr2 hr4 hr6 hrest
  obtain ⟨hne1, rfl⟩ := (digits1_eq_some _ _).mp hp1
  obtain ⟨hne2, rfl⟩ := (digits1_eq_some _ _).mp hp2
  obtain ⟨hne3, rfl⟩ := (digits1_eq_some _ _).mp hp3
  obtain ⟨hne4, rfl⟩ := (digits1_eq_some _ _).mp hp4
  by_cases hcond : rest.getLast? = some ':' ∧ rest.dropLast ≠ []
  · rw [if_pos hcond] at hfinal
    injection hfinal with hfin
    have hfin1 : t1 = parseNatDigits (r0.takeWhile Char.isDigit) * 60 +
        parseNatDigits (r2.takeWhile Char.isDigit) := (congrArg Prod.fst hfin).symm
    have hfin2 : t2 = parseNatDigits ((skipPySpaces r4).takeWhile Char.isDigit) * 60 +
        parseNatDigits (r6.takeWhile Char.isDigit) := (congrArg (fun x => x.2.1) hfin).symm
    have hfin3 : lab = pyStrip rest.dropLast := (congrArg (fun x => x.2.2) hfin).symm
    have hr2' : List.dropWhile Char.isDigit r0 = ':' :: r2 := hr2
    have hr4' : List.dropWhile pyIsSpace (List.dropWhile Char.isDigit r2) = '→' :: r4 := hr4
    have hr6' : List.dropWhile Char.isDigit (skipPySpaces r4) = ':' :: r6 := hr6
    have hrest' : List.dropWhile Char.isDigit r6 = ']' :: rest := hrest
    refine ⟨r0.takeWhile Char.isDigit, r2.takeWhile Char.isDigit,
      (skipPySpaces r4).takeWhile Char.isDigit, r6.takeWhile Char.isDigit,
      (r2.dropWhile Char.isDigit).takeWhile pyIsSpace,
      r4.takeWhile pyIsSpace, rest.dropLast,
      ?_, hne1, fun c hc => List.mem_takeWhile_imp hc,
      hne2, fun c hc => List.mem_takeWhile_imp hc,
      hne3, fun c hc => List.mem_takeWhile_imp hc,
      hne4, fun c hc => List.mem_takeWhile_imp hc,
      fun c hc => List.mem_takeWhile_imp hc,
      fun c hc => List.mem_takeWhile_imp hc,
      hcond.2, hfin1, hfin2, hfin3⟩
    rw [hr0]
    congr 1
    conv_lhs => rw [← List.takeWhile_append_dropWhile (p := Char.isDigit) (l := r0)]
    congr 1
    rw [hr2']
    congr 1
    conv_lhs => rw [← List.takeWhile_append_dropWhile (p := Char.isDigit) (l := r2)]
    congr 1
    conv_lhs =>
      rw [← List.takeWhile_append_dropWhile (p := pyIsSpace) (l := r2.dropWhile Char.isDigit)]
    congr 1
    rw [hr4']
    congr 1
    conv_lhs => rw [← List.takeWhile_append_dropWhile (p := pyIsSpace) (l := r4)]
    congr 1
    show skipPySpaces r4 = _
    conv_lhs =>
      rw [← List.takeWhile_append_dropWhile (p := Char.isDigit) (l := skipPySpaces r4)]
    congr 1
    rw [hr6']
    congr 1
    conv_lhs => rw [← List.takeWhile_append_dropWhile (p := Char.isDigit) (l := r6)]
    congr 1
    rw [hrest']
    congr 1
    exact getLast?_some_decomp rest ':' hcond.1
  · rw [if_neg hcond] at hfinal
    exact absurd hfinal (by simp)

/-- The deterministic header parser succeeds exactly on the lines matched
by the header regex. -/
theorem headerParse_isSome_iff (l : List Char) :
    (headerParse l).isSome ↔ HeaderMatches l := by
  constructor
  · intro h
    obtain ⟨⟨t1, t2, lab⟩, hv⟩ := Option.isSome_iff_exists.mp h
    obtain ⟨d1, d2, d3, d4, w1, w2, mid, hshape, hrest⟩ :=
      headerParse_some_decomp l t1 t2 lab hv
    exact ⟨d1, d2, d3, d4, w1, w2, mid, hshape, hrest.1, hrest.2.1, hrest.2.2.1,
      hrest.2.2.2.1, hrest.2.2.2.2.1, hrest.2.2.2.2.2.1, hrest.2.2.2.2.2.2.1,
      hrest.2.2.2.2.2.2.2.1, hrest.2.2.2.2.2.2.2.2.1, hrest.2.2.2.2.2.2.2.2.2.1,
      hrest.2.2.2.2.2.2.2.2.2.2.1⟩
  · rintro ⟨d1, d2, d3, d4, w1, w2, mid, rfl, h1, ha1, h2, ha2, h3, ha3, h4, ha4,
      hw1, hw2, hmid⟩
    rw [headerParse_build d1 d2 d3 d4 w1 w2 mid h1 ha1 h2 ha2 h3 ha3 h4 ha4 hw1 hw2 hmid]
    rfl

/-! ## Spec-side description of `from_editable`

The spec describes the parse as: locate every header line; a block's body
is all text between its header and the next header (or end of input).
`specBlocks` is that description, written as recursive descent with
`takeWhile`/`dropWhile`; the body is the joined slice, stripped. -/

theorem length_dropWhile_le {α : Type} (p : α → Bool) (l : List α) :
    (l.dropWhile p).length ≤ l.length :=
  (List.dropWhile_sublist p).length_le

def specBlocks : List (List Char) → List Segment
  | [] => []
  | line :: rest =>
    match headerParse line with
    | none => specBlocks rest
    | some h =>
      closeBlock h (rest.takeWhile (fun l2 => (headerParse l2).isNone)) ::
        specBlocks (rest.dropWhile (fun l2 => (headerParse l2).isNone))
termination_by l => l.length
decreasing_by
  all_goals
    simp only [List.length_cons, Nat.lt_succ_iff]
    first
    | exact Nat.le_refl _
    | exact length_dropWhile_le _ _

theorem specBlocks_nil : specBlocks [] = [] := by
  rw [specBlocks]

theorem specBlocks_cons_none (line : List Char) (rest : List (List Char))
    (h : headerParse line = none) :
    specBlocks (line :: rest) = specBlocks rest := by
  rw [specBlocks, h]

theorem specBlocks_cons_some (line : List Char) (rest : List (List Char))
    (hd : ℕ × ℕ × List Char) (h : headerParse line = some hd) :
    specBlocks (line :: rest) =
      closeBlock hd (rest.takeWhile (fun l2 => (headerParse l2).isNone)) ::
        specBlocks (rest.dropWhile (fun l2 => (headerParse l2).isNone)) := by
  rw [specBlocks, h]

/-- Flush of the final open block of the `from_editable` scan. -/
def flushFe : Option ((ℕ × ℕ × List Char) × List (List Char)) → List Segment
  | some ob => [closeBlock ob.1 ob.2.reverse]
  | none => []

theorem feStep_header (st : List Segment × Option ((ℕ × ℕ × List Char) × List (List Char)))
    (line : List Char) (h : ℕ × ℕ × List Char) (hline : headerParse line = some h) :
    feStep st line =
      match st.2 with
      | some ob => (st.1 ++ [closeBlock ob.1 ob.2.reverse], some (h, []))
      | none => (st.1, some (h, [])) := by
  rw [feStep, hline]

theorem feStep_other (st : List Segment × Option ((ℕ × ℕ × List Char) × List (List Char)))
    (line : List Char) (hline : headerParse line = none) :
    feStep st line =
      match st.2 with
      | some ob => (st.1, some (ob.1, line :: ob.2))
      | none => st := by
  rw [feStep, hline]

theorem feFold_open (lines : List (List Char)) :
    ∀ (segs : List Segment) (h : ℕ × ℕ × List Char) (bodyRev : List (List Char)),
      (lines.foldl feStep (segs, some (h, bodyRev))).1 ++
          flushFe (lines.foldl feStep (segs, some (h, bodyRev))).2 =
        segs ++ closeBlock h (bodyRev.reverse ++
            lines.takeWhile (fun l2 => (headerParse l2).isNone)) ::
          specBlocks (lines.dropWhile (fun l2 => (headerParse l2).isNone)) := by
  induction lines with
  | nil =>
    intro segs h bodyRev
    simp [flushFe, specBlocks_nil]
  | cons line ls ih =>
    intro segs h bodyRev
    rw [List.foldl_cons]
    rcases hline : headerParse line with _ | h2
    · rw [feStep_other _ _ hline]
      show (ls.foldl feStep (segs, some (h, line :: bodyRev))).1 ++ _ = _
      rw [ih segs h (line :: bodyRev)]
      rw [List.takeWhile_cons_of_pos (p := fun l2 => (headerParse l2).isNone)
        (by simp [hline])]
      rw [List.dropWhile_cons_of_pos (p := fun l2 => (headerParse l2).isNone)
        (by simp [hline])]
      simp [List.append_assoc]
    · rw [feStep_header _ _ _ hline]
      show (ls.foldl feStep (segs ++ [closeBlock h bodyRev.reverse], some (h2, []))).1 ++ _ = _
      rw [ih (segs ++ [closeBlock h bodyRev.reverse]) h2 []]
      rw [List.takeWhile_cons_of_neg (p := fun l2 => (headerParse l2).isNone)
        (by simp [hline])]
      rw [List.dropWhile_cons_of_neg (p := fun l2 => (headerParse l2).isNone)
        (by simp [hline])]
      rw [specBlocks_cons_some line ls h2 hline]
      simp [List.append_assoc]

theorem feFold_closed (lines : List (List Char)) :
    ∀ segs : List Segment,
      (lines.foldl feStep (segs, none)).1 ++
          flushFe (lines.foldl feStep (segs, none)).2 =
        segs ++ specBlocks lines := by
  induction lines with
  | nil => intro segs; simp [flushFe, specBlocks_nil]
  | cons line ls ih =>
    intro segs
    rw [List.foldl_cons]
    rcases hline : headerParse line with _ | h2
    · rw [feStep_other _ _ hline]
      show (ls.foldl feStep (segs, none)).1 ++ _ = _
      rw [ih segs, specBlocks_cons_none line ls hline]
    · rw [feStep_header _ _ _ hline]
      show (ls.foldl feStep (segs, some (h2, []))).1 ++ _ = _
      rw [feFold_open ls segs h2 []]
      rw [specBlocks_cons_some line ls h2 hline]
      simp

/-- `from_editable` computes exactly the header-scan description: every
header line starts a block whose body is all text up to the next header
line (or end of input), joined and stripped. -/
theorem from_editable_eq_specBlocks (text : String) :
    from_editable text = specBlocks (splitChar '\n' text.data) := by
  show (List.foldl feStep ([], none) (splitChar '\n' text.data)).1 ++ _ = _
  have := feFold_closed (splitChar '\n' text.data) []
  rw [List.nil_append] at this
  rw [← this]
  rfl

/-- C9 counterexample: the claim says bodies are trimmed of leading and
trailing *blank lines* only.  On the body line `"  x"` (no blank lines at
all) the code's `.strip()` also removes the leading spaces, so the claim's
predicted segment text `"  x"` is wrong: the code produces `"x"`. -/
theorem C9_counterexample :
    from_editable "[0:00 → 0:05] A:\n  x" ≠ [⟨"A", "  x", 0, 5⟩] ∧
    from_editable "[0:00 → 0:05] A:\n  x" = [⟨"A", "x", 0, 5⟩] :=
  ⟨by decide, by decide⟩

/-- C9 (amended): a line is treated as a block header exactly when it
matches the header regex `\[(\d+:\d+)\s*→\s*(\d+:\d+)\]\s*(.+?)\s*:$`
(`HeaderMatches`); on a match the recovered label is the trimmed text
between `]` and the final colon and the times are the `_parse_time`
values of the two groups; and every matching line starts a segment whose
body is all text between that header and the next header line (or end of
input), trimmed of leading/trailing whitespace — so bodies containing
internal blank lines are preserved verbatim apart from that outer strip. -/
theorem C9_header_scan :
    (∀ l : List Char, (headerParse l).isSome ↔ HeaderMatches l) ∧
    (∀ (l : List Char) (t1 t2 : ℕ) (lab : List Char),
      headerParse l = some (t1, t2, lab) →
      ∃ d1 d2 d3 d4 w1 w2 mid : List Char,
        l = '[' :: (d1 ++ ':' :: (d2 ++ (w1 ++ '→' :: (w2 ++ (d3 ++ ':' ::
          (d4 ++ ']' :: (mid ++ [':']))))))) ∧
        d1 ≠ [] ∧ (∀ c ∈ d1, c.isDigit = true) ∧
        d2 ≠ [] ∧ (∀ c ∈ d2, c.isDigit = true) ∧
        d3 ≠ [] ∧ (∀ c ∈ d3, c.isDigit = true) ∧
        d4 ≠ [] ∧ (∀ c ∈ d4, c.isDigit = true) ∧
        (∀ c ∈ w1, pyIsSpace c = true) ∧ (∀ c ∈ w2, pyIsSpace c = true) ∧
        mid ≠ [] ∧
        t1 = parseNatDigits d1 * 60 + parseNatDigits d2 ∧
        t2 = parseNatDigits d3 * 60 + parseNatDigits d4 ∧
        lab = pyStrip mid) ∧
    (∀ text : String, from_editable text = specBlocks (splitChar '\n' text.data)) :=
  ⟨headerParse_isSome_iff, headerParse_some_decomp, from_editable_eq_specBlocks⟩

/-- Witness for C9: a concrete header line matches the regex, and a text
with stray leading content and a multi-paragraph body parses by the
header-scan description. -/
theorem C9_header_scan_witness :
    HeaderMatches "[0:00 → 0:05] A:".data ∧
    from_editable "junk\n[0:00 → 0:05] A:\nFirst.\n\nSecond." =
      specBlocks (splitChar '\n' "junk\n[0:00 → 0:05] A:\nFirst.\n\nSecond.".data) ∧
    from_editable "junk\n[0:00 → 0:05] A:\nFirst.\n\nSecond." =
      [⟨"A", "First.\n\nSecond.", 0, 5⟩] :=
  ⟨(C9_header_scan.1 _).mp (by decide), C9_header_scan.2.2 _, by decide⟩

/-! ## Round trip `from_editable ∘ to_editable` -/

/-- The shape of `_ftime` output for non-negative times: two non-empty
digit groups around `:`, whose `_parse_time` value is the truncated
seconds. -/
theorem ftimeChars_shape (q : ℚ) (hq : 0 ≤ q) :
    ftimeChars q = pad02 (intToDecimal ((pyTrunc q).fdiv 60)) ++ ':' ::
        pad02 (intToDecimal ((pyTrunc q).fmod 60)) ∧
      pad02 (intToDecimal ((pyTrunc q).fdiv 60)) ≠ [] ∧
      (∀ c ∈ pad02 (intToDecimal ((pyTrunc q).fdiv 60)), c.isDigit = true) ∧
      pad02 (intToDecimal ((pyTrunc q).fmod 60)) ≠ [] ∧
      (∀ c ∈ pad02 (intToDecimal ((pyTrunc q).fmod 60)), c.isDigit = true) ∧
      parseNatDigits (pad02 (intToDecimal ((pyTrunc q).fdiv 60))) * 60 +
          parseNatDigits (pad02 (intToDecimal ((pyTrunc q).fmod 60))) =
        (pyTrunc q).toNat := by
  have hn : 0 ≤ pyTrunc q := by
    rw [pyTrunc, if_pos hq]
    exact Int.floor_nonneg.mpr hq
  have hd : 0 ≤ (pyTrunc q).fdiv 60 := Int.fdiv_nonneg hn (by norm_num)
  have hm : 0 ≤ (pyTrunc q).fmod 60 := Int.fmod_nonneg hn (by norm_num)
  have hdint : intToDecimal ((pyTrunc q).fdiv 60) =
      natToDecimal ((pyTrunc q).fdiv 60).toNat := by
    rw [intToDecimal, if_neg (by omega)]
  have hmint : intToDecimal ((pyTrunc q).fmod 60) =
      natToDecimal ((pyTrunc q).fmod 60).toNat := by
    rw [intToDecimal, if_neg (by omega)]
  refine ⟨rfl, ?_, ?_, ?_, ?_, ?_⟩
  · rw [hdint]; exact pad02_ne_nil _
  · rw [hdint]; exact pad02_all_digits _ (natToDecimal_all_digits _)
  · rw [hmint]; exact pad02_ne_nil _
  · rw [hmint]; exact pad02_all_digits _ (natToDecimal_all_digits _)
  · rw [hdint, hmint, parseNatDigits_pad02, parseNatDigits_pad02,
      parseNatDigits_natToDecimal, parseNatDigits_natToDecimal]
    have hid := Int.fdiv_add_fmod (pyTrunc q) 60
    omega

theorem ftimeChars_no_newline (q : ℚ) (hq : 0 ≤ q) : '\n' ∉ ftimeChars q := by
  obtain ⟨hshape, _, ha1, _, ha2, _⟩ := ftimeChars_shape q hq
  rw [hshape]
  intro hmem
  rcases List.mem_append.mp hmem with h1 | h2
  · have := ha1 _ h1
    simp at this
  · rcases List.mem_cons.mp h2 with h3 | h4
    · exact absurd h3 (by decide)
    · have := ha2 _ h4
      simp at this

theorem headerChars_no_newline (s : Segment) (h0 : 0 ≤ s.start) (h1 : 0 ≤ s.«end»)
    (hspk : '\n' ∉ s.speaker.data) : '\n' ∉ headerChars s := by
  have hfix : ∀ c ∈ headerChars s, c ∈ ftimeChars s.start ∨ c ∈ ftimeChars s.«end» ∨
      c ∈ s.speaker.data ∨ c ∈ ['[', ' ', '→', ']', ':'] := by
    intro c hc
    rw [headerChars] at hc
    simp only [List.mem_cons, List.mem_append, List.mem_singleton] at hc ⊢
    tauto
  intro hmem
  rcases hfix _ hmem with h | h | h | h
  · exact ftimeChars_no_newline s.start h0 h
  · exact ftimeChars_no_newline s.«end» h1 h
  · exact hspk h
  · simp at h

/-- The header line a segment renders to parses back to the truncated
times and the speaker label (for a strip-invariant speaker). -/
theorem headerChars_parse (s : Segment) (h0 : 0 ≤ s.start) (h1 : 0 ≤ s.«end»)
    (hspk : pyStrip s.speaker.data = s.speaker.data) :
    headerParse (headerChars s) =
      some ((pyTrunc s.start).toNat, (pyTrunc s.«end»).toNat, s.speaker.data) := by
  obtain ⟨hsh1, hne1, ha1, hne2, ha2, hval1⟩ := ftimeChars_shape s.start h0
  obtain ⟨hsh2, hne3, ha3, hne4, ha4, hval2⟩ := ftimeChars_shape s.«end» h1
  have hshape : headerChars s =
      '[' :: (pad02 (intToDecimal ((pyTrunc s.start).fdiv 60)) ++ ':' ::
        (pad02 (intToDecimal ((pyTrunc s.start).fmod 60)) ++ ([' '] ++ '→' ::
          ([' '] ++ (pad02 (intToDecimal ((pyTrunc s.«end»).fdiv 60)) ++ ':' ::
            (pad02 (intToDecimal ((pyTrunc s.«end»).fmod 60)) ++ ']' ::
              ((' ' :: s.speaker.data) ++ [':']))))))) := by
    rw [headerChars, hsh1, hsh2]
    simp [List.append_assoc]
  rw [hshape]
  rw [headerParse_build _ _ _ _ _ _ _ hne1 ha1 hne2 ha2 hne3 ha3 hne4 ha4
    (by intro c hc; simp at hc; subst hc; decide)
    (by intro c hc; simp at hc; subst hc; decide)
    (by simp)]
  rw [show (' ' :: s.speaker.data) = [' '] ++ s.speaker.data from rfl]
  rw [pyStrip_spaces_append [' '] s.speaker.data (by intro c hc; simp at hc; subst hc; decide)]
  rw [hspk, hval1, hval2]

theorem takeWhile_append_of_all {α : Type} {p : α → Bool} (A B : List α)
    (h : ∀ a ∈ A, p a = true) :
    (A ++ B).takeWhile p = A ++ B.takeWhile p := by
  induction A with
  | nil => rfl
  | cons a A' ih =>
    rw [List.cons_append, List.takeWhile_cons_of_pos (h a (by simp)),
      ih (fun a' ha' => h a' (by simp [ha']))]
    rfl

/-- The segment-level conditions under which the editable round trip is
exact on speaker and text: the data-model bounds, strip-invariant and
newline-free speaker, strip-invariant text, and no text line matching the
header pattern. -/
def EditableSafe (s : Segment) : Prop :=
  0 ≤ s.start ∧ s.start ≤ s.«end» ∧
  pyStrip s.speaker.data = s.speaker.data ∧ '\n' ∉ s.speaker.data ∧
  pyStrip s.text.data = s.text.data ∧
  ∀ line ∈ splitChar '\n' s.text.data, headerParse line = none

instance (s : Segment) : Decidable (EditableSafe s) := by
  unfold EditableSafe
  infer_instance

/-- The segment produced back by the round trip: same speaker and text,
times truncated to whole seconds. -/
def floorSeg (s : Segment) : Segment :=
  ⟨s.speaker, s.text, ((pyTrunc s.start).toNat : ℚ), ((pyTrunc s.«end»).toNat : ℚ)⟩

theorem split_block_front (r : Segment) (X : List Char) (hnl : '\n' ∉ headerChars r) :
    splitChar '\n' (blockChars r ++ X) =
      headerChars r :: splitChar '\n' (r.text.data ++ X) := by
  have hshape : blockChars r ++ X = headerChars r ++ '\n' :: (r.text.data ++ X) := by
    rw [blockChars, List.append_assoc]
    rfl
  rw [hshape, splitChar_append '\n' (headerChars r) (r.text.data ++ X),
    splitChar_sepFree '\n' (headerChars r) hnl]
  rfl

theorem split_text_newline (t : List Char) :
    splitChar '\n' (t ++ ['\n']) = splitChar '\n' t ++ [[]] := by
  rw [show t ++ ['\n'] = t ++ '\n' :: [] from rfl,
    splitChar_append '\n' t []]
  rfl

theorem split_text_two_newlines (t Y : List Char) :
    splitChar '\n' (t ++ '\n' :: '\n' :: Y) =
      splitChar '\n' t ++ [] :: splitChar '\n' Y := by
  rw [splitChar_append '\n' t ('\n' :: Y),
    show ('\n' :: Y) = ([] : List Char) ++ '\n' :: Y from rfl,
    splitChar_append '\n' [] Y]
  rfl

theorem to_editable_cons_data (s : Segment) (rest : List Segment) :
    (to_editable (s :: rest)).data =
      match rest with
      | [] => blockChars s ++ ['\n']
      | _ :: _ => blockChars s ++ '\n' :: '\n' ::
          (joinWith ['\n', '\n'] (rest.map blockChars) ++ ['\n']) := by
  cases rest with
  | nil => rfl
  | cons r2 rs' =>
    show joinWith ['\n', '\n'] (blockChars s :: (blockChars r2 :: rs'.map blockChars)) ++
        ['\n'] = _
    rw [show blockChars s :: (blockChars r2 :: rs'.map blockChars) =
      [blockChars s] ++ (blockChars r2 :: rs'.map blockChars) from rfl]
    rw [joinWith_append_of_ne_nil ['\n', '\n'] [blockChars s]
      (blockChars r2 :: rs'.map blockChars) (by simp) (by simp)]
    simp [joinWith, List.append_assoc]

theorem split_to_editable_cons (r : Segment) (rs : List Segment)
    (hnl : '\n' ∉ headerChars r) :
    ∃ T, splitChar '\n' (to_editable (r :: rs)).data = headerChars r :: T := by
  rw [to_editable_cons_data]
  cases rs with
  | nil => exact ⟨_, split_block_front r ['\n'] hnl⟩
  | cons r2 rs' => exact ⟨_, split_block_front r _ hnl⟩

/-- Body reconstruction: the lines of the text followed by the blank
separator line join and strip back to the original text. -/
theorem body_restore (t : List Char) (ht : pyStrip t = t) :
    pyStrip (joinWith ['\n'] (splitChar '\n' t ++ [[]])) = t := by
  rw [joinWith_append_of_ne_nil ['\n'] (splitChar '\n' t) [[]]
    (splitChar_ne_nil '\n' t) (by simp)]
  rw [joinWith_splitChar]
  rw [show joinWith ['\n'] [[]] = [] from rfl, List.append_nil]
  rw [pyStrip_append_spaces t ['\n'] (by intro c hc; simp at hc; subst hc; decide)]
  exact ht

theorem specBlocks_to_editable (segs : List Segment)
    (h : ∀ s ∈ segs, EditableSafe s) :
    specBlocks (splitChar '\n' (to_editable segs).data) = segs.map floorSeg := by
  induction segs with
  | nil =>
    show specBlocks (splitChar '\n' ['\n']) = []
    rw [show splitChar '\n' ['\n'] = [[], []] from rfl]
    rw [specBlocks_cons_none [] [[]] (by rfl), specBlocks_cons_none [] [] (by rfl),
      specBlocks_nil]
  | cons s rest ih =>
    obtain ⟨h0, h1, hspk, hnl, htext, hlines⟩ := h s (by simp)
    have hrest : ∀ s' ∈ rest, EditableSafe s' := fun s' hs' => h s' (by simp [hs'])
    have hhnl : '\n' ∉ headerChars s :=
      headerChars_no_newline s h0 (le_trans h0 h1) hnl
    have hparse := headerChars_parse s h0 (le_trans h0 h1) hspk
    rw [to_editable_cons_data]
    cases rest with
    | nil =>
      rw [split_block_front s ['\n'] hhnl, split_text_newline s.text.data]
      rw [specBlocks_cons_some _ _ _ hparse]
      rw [takeWhile_append_of_all (splitChar '\n' s.text.data) [[]]
        (fun l hl => by simp [hlines l hl])]
      rw [show List.takeWhile (fun l2 => (headerParse l2).isNone) [([] : List Char)] =
        [[]] from rfl]
      rw [show List.dropWhile (fun l2 => (headerParse l2).isNone)
          (splitChar '\n' s.text.data ++ [[]]) =
        List.dropWhile (fun l2 => (headerParse l2).isNone) [[]] from by
          rw [dropWhile_append_of_all _ _ (fun l hl => by simp [hlines l hl])]]
      rw [show List.dropWhile (fun l2 => (headerParse l2).isNone) [([] : List Char)] =
        [] from rfl]
      rw [specBlocks_nil]
      rw [closeBlock, body_restore s.text.data htext]
      rfl
    | cons r2 rs' =>
      obtain ⟨hr0, hr1, hrspk, hrnl, _, _⟩ := hrest r2 (by simp)
      have hrhnl : '\n' ∉ headerChars r2 :=
        headerChars_no_newline r2 hr0 (le_trans hr0 hr1) hrnl
      obtain ⟨T, hT⟩ := split_to_editable_cons r2 rs' hrhnl
      have hJ : joinWith ['\n', '\n'] ((r2 :: rs').map blockChars) ++ ['\n'] =
          (to_editable (r2 :: rs')).data := rfl
      rw [split_block_front s _ hhnl]
      rw [show s.text.data ++ '\n' :: '\n' ::
          (joinWith ['\n', '\n'] ((r2 :: rs').map blockChars) ++ ['\n']) =
        s.text.data ++ '\n' :: '\n' :: (to_editable (r2 :: rs')).data from by rw [hJ]]
      rw [split_text_two_newlines]
      rw [specBlocks_cons_some _ _ _ hparse]
      rw [hT]
      have hcut : ([] : List Char) :: headerChars r2 :: T =
          [([] : List Char)] ++ headerChars r2 :: T := rfl
      rw [hcut, ← List.append_assoc]
      have hrparse := headerChars_parse r2 hr0 (le_trans hr0 hr1) hrspk
      rw [takeWhile_append_of_all (splitChar '\n' s.text.data ++ [[]]) _
        (by
          intro l hl
          rcases List.mem_append.mp hl with hl1 | hl2
          · simp [hlines l hl1]
          · simp at hl2
            subst hl2
            rfl)]
      rw [List.takeWhile_cons_of_neg (p := fun l2 => (headerParse l2).isNone)
        (by simp [hrparse])]
      rw [dropWhile_append_of_all _ _
        (by
          intro l hl
          rcases List.mem_append.mp hl with hl1 | hl2
          · simp [hlines l hl1]
          · simp at hl2
            subst hl2
            rfl)]
      rw [List.dropWhile_cons_of_neg (p := fun l2 => (headerParse l2).isNone)
        (by simp [hrparse])]
      rw [← hT, ih hrest]
      rw [List.append_nil, closeBlock, body_restore s.text.data htext]
      rfl

theorem floor_time_close (q : ℚ) (hq : 0 ≤ q) :
    |((pyTrunc q).toNat : ℚ) - q| < 60 := by
  have hfl : pyTrunc q = ⌊q⌋ := by rw [pyTrunc, if_pos hq]
  have hnn : 0 ≤ ⌊q⌋ := Int.floor_nonneg.mpr hq
  have hcast : ((pyTrunc q).toNat : ℚ) = ((⌊q⌋ : ℤ) : ℚ) := by
    rw [hfl]
    norm_cast
    omega
  rw [hcast]
  have hle : ((⌊q⌋ : ℤ) : ℚ) ≤ q := Int.floor_le q
  have hlt : q < ((⌊q⌋ : ℤ) : ℚ) + 1 := Int.lt_floor_add_one q
  rw [abs_sub_comm, abs_of_nonneg (by linarith)]
  linarith

/-- C3 counterexample: the claim conditions the round trip only on the
data model (`start ≥ 0`, `end ≥ start`), which says nothing about the
text.  The segment `⟨"A", " x", 0, 0⟩` satisfies the data model, but the
round trip strips the text's leading space, so the text is not preserved
exactly. -/
theorem C3_counterexample :
    from_editable (to_editable [⟨"A", " x", 0, 0⟩]) = [⟨"A", "x", 0, 0⟩] ∧
    from_editable (to_editable [⟨"A", " x", 0, 0⟩]) ≠ [⟨"A", " x", 0, 0⟩] :=
  ⟨by decide, by decide⟩

/-- C3 (amended): for segments satisfying the data model whose speaker is
strip-invariant and newline-free, whose text is strip-invariant, and none
of whose text lines matches the header pattern (`EditableSafe`),
`from_editable (to_editable s)` preserves speaker and text exactly and
re-parses each `start`/`end` within 60 seconds (in fact within 1 second:
the times come back as `float(int(t) // 60 * 60 + int(t) % 60) = ⌊t⌋`). -/
theorem C3_editable_roundtrip (segs : List Segment)
    (h : ∀ s ∈ segs, EditableSafe s) :
    (from_editable (to_editable segs)).length = segs.length ∧
    ∀ i, ∀ hi : i < (from_editable (to_editable segs)).length,
      ∀ hj : i < segs.length,
      ((from_editable (to_editable segs)).get ⟨i, hi⟩).speaker =
          (segs.get ⟨i, hj⟩).speaker ∧
      ((from_editable (to_editable segs)).get ⟨i, hi⟩).text = (segs.get ⟨i, hj⟩).text ∧
      |((from_editable (to_editable segs)).get ⟨i, hi⟩).start -
          (segs.get ⟨i, hj⟩).start| < 60 ∧
      |((from_editable (to_editable segs)).get ⟨i, hi⟩).«end» -
          (segs.get ⟨i, hj⟩).«end»| < 60 := by
  have key : from_editable (to_editable segs) = segs.map floorSeg := by
    rw [from_editable_eq_specBlocks, specBlocks_to_editable segs h]
  constructor
  · rw [key, List.length_map]
  · intro i hi hj
    have hval : (from_editable (to_editable segs)).get ⟨i, hi⟩ =
        floorSeg (segs.get ⟨i, hj⟩) := by
      have := List.get_of_eq key ⟨i, hi⟩
      rw [this]
      exact List.get_map _
    obtain ⟨hs0, hs1, _⟩ := h (segs.get ⟨i, hj⟩) (List.get_mem _ _ _)
    refine ⟨by rw [hval]; rfl, by rw [hval]; rfl, ?_, ?_⟩
    · rw [hval]
      exact floor_time_close _ hs0
    · rw [hval]
      exact floor_time_close _ (le_trans hs0 hs1)

/-- Witness for C3: a fractional start time comes back truncated to the
whole second; speaker and text are exact. -/
theorem C3_editable_roundtrip_witness :
    (∀ s ∈ [(⟨"SPEAKER_00", "Feeling anxious.", mkRat 131 2, 70⟩ : Segment)],
      EditableSafe s) ∧
    ((from_editable (to_editable
        [(⟨"SPEAKER_00", "Feeling anxious.", mkRat 131 2, 70⟩ : Segment)])).length = 1 ∧
      ∀ i, ∀ hi : i < (from_editable (to_editable
          [(⟨"SPEAKER_00", "Feeling anxious.", mkRat 131 2, 70⟩ : Segment)])).length,
        ∀ hj : i < [(⟨"SPEAKER_00", "Feeling anxious.", mkRat 131 2, 70⟩ : Segment)].length,
        ((from_editable (to_editable
            [(⟨"SPEAKER_00", "Feeling anxious.", mkRat 131 2, 70⟩ : Segment)])).get
              ⟨i, hi⟩).speaker =
            ([(⟨"SPEAKER_00", "Feeling anxious.", mkRat 131 2, 70⟩ : Segment)].get
              ⟨i, hj⟩).speaker ∧
        ((from_editable (to_editable
            [(⟨"SPEAKER_00", "Feeling anxious.", mkRat 131 2, 70⟩ : Segment)])).get
              ⟨i, hi⟩).text =
            ([(⟨"SPEAKER_00", "Feeling anxious.", mkRat 131 2, 70⟩ : Segment)].get
              ⟨i, hj⟩).text ∧
        |((from_editable (to_editable
            [(⟨"SPEAKER_00", "Feeling anxious.", mkRat 131 2, 70⟩ : Segment)])).get
              ⟨i, hi⟩).start -
            ([(⟨"SPEAKER_00", "Feeling anxious.", mkRat 131 2, 70⟩ : Segment)].get
              ⟨i, hj⟩).start| < 60 ∧
        |((from_editable (to_editable
            [(⟨"SPEAKER_00", "Feeling anxious.", mkRat 131 2, 70⟩ : Segment)])).get
              ⟨i, hi⟩).«end» -
            ([(⟨"SPEAKER_00", "Feeling anxious.", mkRat 131 2, 70⟩ : Segment)].get
              ⟨i, hj⟩).«end»| < 60) :=
  ⟨by decide, C3_editable_roundtrip _ (by decide)⟩

/-! ## JSONL codec (`transcribe.to_jsonl` / `transcribe.from_jsonl`)

`json.dumps` is modelled by an exact printer for the emitted fragment
(flat object, string values escaped with `ensure_ascii=True`, float
values in plain decimal), and `json.loads` by a parser for that fragment
(arbitrary key order, JSON whitespace, `\uXXXX` escapes with surrogate
pairs).  A raised exception on a malformed line — whether a JSON parse
error or the `TypeError` of `Segment(**d)` on wrong keys — is `none`.
Timestamps are exact rationals; `DecFinite` is the image of "is a finite
binary64 float" at this layer (a finite decimal expansion, which every
dyadic rational has). -/

/-- A rational with a finite decimal expansion (`q.den` divides a power
of ten; the exponent `q.den` always suffices when one exists). -/
def DecFinite (q : ℚ) : Prop := q.den ∣ 10 ^ q.den

instance (q : ℚ) : Decidable (DecFinite q) := by
  unfold DecFinite
  infer_instance

/-- Lowercase hex digit. -/
def hexDigitChar (d : ℕ) : Char :=
  if d < 10 then Char.ofNat (48 + d) else Char.ofNat (87 + d)

/-- The four hex digits of `n < 0x10000`, most significant first. -/
def hex4Digits (n : ℕ) : List Char :=
  [hexDigitChar (n / 4096 % 16), hexDigitChar (n / 256 % 16),
   hexDigitChar (n / 16 % 16), hexDigitChar (n % 16)]

/-- Value of one hex digit character (either case accepted, as in
`json.loads`). -/
def hexVal (c : Char) : Option ℕ :=
  if '0' ≤ c ∧ c ≤ '9' then some (c.toNat - 48)
  else if 'a' ≤ c ∧ c ≤ 'f' then some (c.toNat - 87)
  else if 'A' ≤ c ∧ c ≤ 'F' then some (c.toNat - 55)
  else none

def hex4 (a b c d : Char) : Option ℕ :=
  (hexVal a).bind fun x =>
  (hexVal b).bind fun y =>
  (hexVal c).bind fun z =>
  (hexVal d).map fun w => ((x * 16 + y) * 16 + z) * 16 + w

/-- `json.dumps` escaping of one character (`ensure_ascii=True`): the two
quoting characters and the five control shorthands, `\uXXXX` for other
control or non-ASCII BMP characters, a surrogate pair for astral
characters, and printable ASCII verbatim. -/
def escapeChar (c : Char) : List Char :=
  if c = '"' then ['\\', '"']
  else if c = '\\' then ['\\', '\\']
  else if c = '\n' then ['\\', 'n']
  else if c = '\r' then ['\\', 'r']
  else if c = '\t' then ['\\', 't']
  else if c = '\x08' then ['\\', 'b']
  else if c = '\x0c' then ['\\', 'f']
  else if c.toNat < 0x20 ∨ (0x7F ≤ c.toNat ∧ c.toNat < 0x10000) then
    '\\' :: 'u' :: hex4Digits c.toNat
  else if 0x10000 ≤ c.toNat then
    ('\\' :: 'u' :: hex4Digits (0xD800 + (c.toNat - 0x10000) / 0x400)) ++
      ('\\' :: 'u' :: hex4Digits (0xDC00 + (c.toNat - 0x10000) % 0x400))
  else [c]

def escapeStr (l : List Char) : List Char := l.flatMap escapeChar

/-- Short escapes accepted by `json.loads` inside strings. -/
def shortEscape (e : Char) : Option Char :=
  if e = '"' then some '"'
  else if e = '\\' then some '\\'
  else if e = '/' then some '/'
  else if e = 'n' then some '\n'
  else if e = 'r' then some '\r'
  else if e = 't' then some '\t'
  else if e = 'b' then some '\x08'
  else if e = 'f' then some '\x0c'
  else none

/-- One `\uXXXX` code unit (after the `\u`): four hex digits. -/
def parseU (l : List Char) : Option (ℕ × List Char) :=
  match l with
  | a :: b :: c :: d :: rest => (hex4 a b c d).map fun n => (n, rest)
  | _ => none

/-- Fuelled string-body scanner; fuel bounds the number of decoded
characters, so any fuel above the input length is enough. -/
def parseStringBodyF : ℕ → List Char → Option (List Char × List Char)
  | 0, _ => none
  | fuel + 1, l =>
    match l with
    | [] => none
    | c :: rest =>
      if c = '"' then some ([], rest)
      else if c = '\\' then
        match rest with
        | [] => none
        | e :: rest2 =>
          if e = 'u' then
            (parseU rest2).bind fun pn =>
              if 0xD800 ≤ pn.1 ∧ pn.1 < 0xDC00 then
                (expectChar '\\' pn.2).bind fun r3 =>
                (expectChar 'u' r3).bind fun r4 =>
                (parseU r4).bind fun pm =>
                if 0xDC00 ≤ pm.1 ∧ pm.1 < 0xE000 then
                  (parseStringBodyF fuel pm.2).map fun p =>
                    (Char.ofNat (0x10000 + (pn.1 - 0xD800) * 0x400 + (pm.1 - 0xDC00)) ::
                      p.1, p.2)
                else none
              else if 0xDC00 ≤ pn.1 ∧ pn.1 < 0xE000 then none
              else (parseStringBodyF fuel pn.2).map fun p => (Char.ofNat pn.1 :: p.1, p.2)
          else
            (shortEscape e).bind fun ch =>
              (parseStringBodyF fuel rest2).map fun p => (ch :: p.1, p.2)
      else if c.toNat < 0x20 then none
      else (parseStringBodyF fuel rest).map fun p => (c :: p.1, p.2)

/-- `json.loads` string scanning after the opening quote: strict mode
(raw control characters rejected), escapes decoded, surrogate pairs
combined.  Lone surrogates are rejected (they are not Lean scalar
values; `dumps` output never contains them). -/
def parseStringBody (l : List Char) : Option (List Char × List Char) :=
  parseStringBodyF (l.length + 1) l

/-- Strip trailing `'0'` characters (shortest-form fraction, as `repr`
of a float prints no trailing zeros). -/
def dropTrailingZeros (l : List Char) : List Char :=
  (l.reverse.dropWhile (fun c => c = '0')).reverse

/-- The magnitude of a decimal-finite `q`, scaled by `10 ^ |q|.den` (a
power known to clear the denominator, see `DecFinite`). -/
def qNum (q : ℚ) : ℕ := |q|.num.toNat * (10 ^ |q|.den / |q|.den)

/-- The fractional digits of `q` before trailing-zero removal: the
remainder digits left-padded with zeros to the full width. -/
def qFracRaw (q : ℚ) : List Char :=
  List.replicate (|q|.den - (natToDecimal (qNum q % 10 ^ |q|.den)).length) '0' ++
    natToDecimal (qNum q % 10 ^ |q|.den)

/-- Fraction as printed: trailing zeros removed, but at least one digit
(`repr(2.0) = "2.0"`). -/
def qFrac (q : ℚ) : List Char :=
  if dropTrailingZeros (qFracRaw q) = [] then ['0'] else dropTrailingZeros (qFracRaw q)

/-- The decimal rendering `json.dumps` gives a (decimal-finite, as every
float is) timestamp: optional sign, integer part, `'.'`, fraction.
Exponent notation for very large/small magnitudes is not modelled. -/
def qToChars (q : ℚ) : List Char :=
  (if q < 0 then ['-'] else []) ++
    natToDecimal (qNum q / 10 ^ |q|.den) ++ '.' :: qFrac q

/-- Magnitude part of a JSON number: digits, optionally `.` digits.
(Leading-zero rejection and exponents of full JSON are not modelled;
printed lines contain neither.) -/
def parseJsonNumMag (l : List Char) : Option (ℚ × List Char) :=
  let p := takeDigits l
  if p.1 = [] then none
  else
    match expectChar '.' p.2 with
    | some r2 =>
      let pf := takeDigits r2
      if pf.1 = [] then none
      else some ((parseNatDigits p.1 : ℚ) + (parseNatDigits pf.1 : ℚ) / 10 ^ pf.1.length, pf.2)
    | none => some ((parseNatDigits p.1 : ℚ), p.2)

def parseJsonNumber (l : List Char) : Option (ℚ × List Char) :=
  match l with
  | [] => none
  | c :: r =>
    if c = '-' then (parseJsonNumMag r).map fun p => (-p.1, p.2)
    else parseJsonNumMag (c :: r)

/-- The JSON values occurring in a segment record. -/
inductive JVal where
  | str : String → JVal
  | num : ℚ → JVal
  deriving Repr, DecidableEq

/-- JSON whitespace (`json.loads` skips only these four). -/
def jsonWsB (c : Char) : Bool := c = ' ' || c = '\t' || c = '\n' || c = '\r'

def jsonSkipWs (l : List Char) : List Char := l.dropWhile jsonWsB

def parseJsonValue (l : List Char) : Option (JVal × List Char) :=
  match l with
  | [] => none
  | c :: r =>
    if c = '"' then (parseStringBody r).map fun p => (JVal.str (String.mk p.1), p.2)
    else (parseJsonNumber (c :: r)).map fun p => (JVal.num p.1, p.2)

def parseMember (l : List Char) : Option ((String × JVal) × List Char) :=
  match jsonSkipWs l with
  | [] => none
  | c :: r =>
    if c = '"' then
      (parseStringBody r).bind fun pk =>
      (expectChar ':' (jsonSkipWs pk.2)).bind fun r2 =>
      (parseJsonValue (jsonSkipWs r2)).map fun pv =>
      ((String.mk pk.1, pv.1), pv.2)
    else none

/-- Parse the four-member object of a segment record.  (`json.loads`
accepts any member count; a different count always ends in the
`TypeError` of `Segment(**d)`, so both error modes are `none` here.) -/
def parseSegObj (l : List Char) : Option (List (String × JVal) × List Char) :=
  (expectChar '{' (jsonSkipWs l)).bind fun r =>
  (parseMember r).bind fun m1 =>
  (expectChar ',' (jsonSkipWs m1.2)).bind fun r1 =>
  (parseMember r1).bind fun m2 =>
  (expectChar ',' (jsonSkipWs m2.2)).bind fun r2 =>
  (parseMember r2).bind fun m3 =>
  (expectChar ',' (jsonSkipWs m3.2)).bind fun r3 =>
  (parseMember r3).bind fun m4 =>
  (expectChar '}' (jsonSkipWs m4.2)).map fun rend =>
  ([m1.1, m2.1, m3.1, m4.1], rend)

def lookupKey (ms : List (String × JVal)) (k : String) : Option JVal :=
  (ms.find? (fun m => m.1 == k)).map (·.2)

/-- `Segment(**d)`: requires exactly the four segment keys with the
right shapes. -/
def segFromMembers (ms : List (String × JVal)) : Option Segment :=
  match lookupKey ms "speaker", lookupKey ms "text",
      lookupKey ms "start", lookupKey ms "end" with
  | some (.str spk), some (.str txt), some (.num st), some (.num en) =>
    some ⟨spk, txt, st, en⟩
  | _, _, _, _ => none

/-- `Segment(**json.loads(line))` for one line. -/
def parseSegmentLine (l : List Char) : Option Segment :=
  (parseSegObj l).bind fun p =>
  match jsonSkipWs p.2 with
  | [] => segFromMembers p.1
  | _ :: _ => none

/-- A JSON string literal as printed by `json.dumps`. -/
def strLit (s : String) : List Char := '"' :: (escapeStr s.data ++ ['"'])

/-- `json.dumps(asdict(s))` with the default separators: the four fields
in dataclass order. -/
def dumpSegment (s : Segment) : List Char :=
  '{' :: (strLit "speaker" ++ ':' :: ' ' :: (strLit s.speaker ++ ',' :: ' ' ::
    (strLit "text" ++ ':' :: ' ' :: (strLit s.text ++ ',' :: ' ' ::
    (strLit "start" ++ ':' :: ' ' :: (qToChars s.start ++ ',' :: ' ' ::
    (strLit "end" ++ ':' :: ' ' :: (qToChars s.«end» ++ ['}']))))))))

/-- `transcribe.to_jsonl(segments)`: one record per line, lines joined by
`"\n"` (no trailing newline; empty input gives `""`). -/
def to_jsonl (segments : List Segment) : String :=
  String.mk (joinWith ['\n'] (segments.map dumpSegment))

/-- `transcribe.from_jsonl(text)`: strip, split on newlines, drop blank
lines, parse each remaining line; any parse failure raises (is `none`). -/
def from_jsonl (text : String) : Option (List Segment) :=
  ((splitChar '\n' (pyStrip text.data)).filter
    (fun line => !(pyStrip line).isEmpty)).mapM parseSegmentLine

/-! ## String escaping round trip -/

theorem hexVal_hexDigitChar (d : ℕ) (h : d < 16) : hexVal (hexDigitChar d) = some d := by
  interval_cases d <;> decide

theorem hex4_hex4Digits (n : ℕ) (h : n < 0x10000) :
    hex4 (hexDigitChar (n / 4096 % 16)) (hexDigitChar (n / 256 % 16))
      (hexDigitChar (n / 16 % 16)) (hexDigitChar (n % 16)) = some n := by
  rw [hex4, hexVal_hexDigitChar _ (by omega), hexVal_hexDigitChar _ (by omega),
    hexVal_hexDigitChar _ (by omega), hexVal_hexDigitChar _ (by omega)]
  simp only [Option.some_bind, Option.map_some']
  congr 1
  omega

theorem char_lt (c : Char) : c.toNat < 0x110000 := by
  rcases c.valid with h | h
  · exact Nat.lt_trans h (by norm_num)
  · exact h.2

theorem char_not_surrogate (c : Char) : c.toNat < 0xD800 ∨ 0xDFFF < c.toNat := by
  rcases c.valid with h | h
  · exact Or.inl h
  · exact Or.inr h.1

theorem psbF_close (fuel : ℕ) (rest : List Char) :
    parseStringBodyF (fuel + 1) ('"' :: rest) = some ([], rest) := rfl

theorem psbF_esc (fuel : ℕ) (e ch : Char) (rest : List Char) (hu : ¬ e = 'u')
    (h : shortEscape e = some ch) :
    parseStringBodyF (fuel + 1) ('\\' :: e :: rest) =
      (parseStringBodyF fuel rest).map fun p => (ch :: p.1, p.2) := by
  rw [parseStringBodyF]
  simp only []
  rw [if_neg (by decide : ¬('\\' : Char) = '"')]
  simp only [if_true]
  rw [if_neg hu, h]
  rfl

theorem psbF_u4 (fuel : ℕ) (a b c3 d : Char) (rest3 : List Char) (n : ℕ)
    (h : hex4 a b c3 d = some n)
    (hs1 : ¬(0xD800 ≤ n ∧ n < 0xDC00)) (hs2 : ¬(0xDC00 ≤ n ∧ n < 0xE000)) :
    parseStringBodyF (fuel + 1) ('\\' :: 'u' :: a :: b :: c3 :: d :: rest3) =
      (parseStringBodyF fuel rest3).map fun p => (Char.ofNat n :: p.1, p.2) := by
  rw [parseStringBodyF]
  simp only []
  rw [if_neg (by decide : ¬('\\' : Char) = '"')]
  simp only [if_true]
  rw [show parseU (a :: b :: c3 :: d :: rest3) = (hex4 a b c3 d).map fun n => (n, rest3)
    from rfl, h]
  simp only [Option.map_some', Option.some_bind]
  rw [if_neg hs1, if_neg hs2]

theorem psbF_upair (fuel : ℕ) (a b c3 d a2 b2 c4 d2 : Char) (rest4 : List Char) (n m : ℕ)
    (hn : hex4 a b c3 d = some n) (hm : hex4 a2 b2 c4 d2 = some m)
    (hs1 : 0xD800 ≤ n ∧ n < 0xDC00) (hs2 : 0xDC00 ≤ m ∧ m < 0xE000) :
    parseStringBodyF (fuel + 1)
        ('\\' :: 'u' :: a :: b :: c3 :: d :: '\\' :: 'u' :: a2 :: b2 :: c4 :: d2 :: rest4) =
      (parseStringBodyF fuel rest4).map fun p =>
        (Char.ofNat (0x10000 + (n - 0xD800) * 0x400 + (m - 0xDC00)) :: p.1, p.2) := by
  rw [parseStringBodyF]
  simp only []
  rw [if_neg (by decide : ¬('\\' : Char) = '"')]
  simp only [if_true]
  rw [show parseU (a :: b :: c3 :: d :: '\\' :: 'u' :: a2 :: b2 :: c4 :: d2 :: rest4) =
    (hex4 a b c3 d).map fun x => (x, '\\' :: 'u' :: a2 :: b2 :: c4 :: d2 :: rest4) from rfl, hn]
  simp only [Option.map_some', Option.some_bind]
  rw [if_pos hs1]
  rw [show expectChar '\\' ('\\' :: 'u' :: a2 :: b2 :: c4 :: d2 :: rest4) =
    some ('u' :: a2 :: b2 :: c4 :: d2 :: rest4) from rfl]
  simp only [Option.some_bind]
  rw [show expectChar 'u' ('u' :: a2 :: b2 :: c4 :: d2 :: rest4) =
    some (a2 :: b2 :: c4 :: d2 :: rest4) from rfl]
  simp only [Option.some_bind]
  rw [show parseU (a2 :: b2 :: c4 :: d2 :: rest4) =
    (hex4 a2 b2 c4 d2).map fun x => (x, rest4) from rfl, hm]
  simp only [Option.map_some', Option.some_bind]
  rw [if_pos hs2]

theorem psbF_plain (fuel : ℕ) (c : Char) (rest : List Char) (h1 : ¬c = '"') (h2 : ¬c = '\\')
    (h3 : ¬c.toNat < 0x20) :
    parseStringBodyF (fuel + 1) (c :: rest) =
      (parseStringBodyF fuel rest).map fun p => (c :: p.1, p.2) := by
  rw [parseStringBodyF.eq_def]
  simp only []
  rw [if_neg h1, if_neg h2, if_neg h3]

theorem escapeStr_length (s : List Char) : s.length ≤ (escapeStr s).length := by
  induction s with
  | nil => simp [escapeStr]
  | cons c s' ih =>
    rw [show escapeStr (c :: s') = escapeChar c ++ escapeStr s' from by simp [escapeStr]]
    rw [List.length_append, List.length_cons]
    have h1 : 1 ≤ (escapeChar c).length := by
      rw [escapeChar]
      repeat' split
      all_goals simp [hex4Digits]
    omega

theorem psbF_escape (s : List Char) : ∀ fuel rest, s.length < fuel →
    parseStringBodyF fuel (escapeStr s ++ '"' :: rest) = some (s, rest) := by
  induction s with
  | nil =>
    intro fuel rest h
    obtain ⟨f, rfl⟩ : ∃ f, fuel = f + 1 := ⟨fuel - 1, by omega⟩
    rw [show escapeStr [] = [] from rfl, List.nil_append, psbF_close]
  | cons c s' ih =>
    intro fuel rest h
    obtain ⟨f, rfl⟩ : ∃ f, fuel = f + 1 := ⟨fuel - 1, by omega⟩
    have hf : s'.length < f := by
      rw [List.length_cons] at h
      omega
    rw [show escapeStr (c :: s') = escapeChar c ++ escapeStr s' from by simp [escapeStr],
      List.append_assoc, escapeChar]
    by_cases h1 : c = '"'
    · subst h1
      rw [if_pos rfl]
      simp only [List.cons_append, List.nil_append]
      rw [psbF_esc f '"' '"' _ (by decide) (by decide), ih f rest hf]
      rfl
    · rw [if_neg h1]
      by_cases h2 : c = '\\'
      · subst h2
        rw [if_pos rfl]
        simp only [List.cons_append, List.nil_append]
        rw [psbF_esc f '\\' '\\' _ (by decide) (by decide), ih f rest hf]
        rfl
      · rw [if_neg h2]
        by_cases h3 : c = '\n'
        · subst h3
          rw [if_pos rfl]
          simp only [List.cons_append, List.nil_append]
          rw [psbF_esc f 'n' '\n' _ (by decide) (by decide), ih f rest hf]
          rfl
        · rw [if_neg h3]
          by_cases h4 : c = '\r'
          · subst h4
            rw [if_pos rfl]
            simp only [List.cons_append, List.nil_append]
            rw [psbF_esc f 'r' '\r' _ (by decide) (by decide), ih f rest hf]
            rfl
          · rw [if_neg h4]
            by_cases h5 : c = '\t'
            · subst h5
              rw [if_pos rfl]
              simp only [List.cons_append, List.nil_append]
              rw [psbF_esc f 't' '\t' _ (by decide) (by decide), ih f rest hf]
              rfl
            · rw [if_neg h5]
              by_cases h6 : c = '\x08'
              · subst h6
                rw [if_pos rfl]
                simp only [List.cons_append, List.nil_append]
                rw [psbF_esc f 'b' '\x08' _ (by decide) (by decide), ih f rest hf]
                rfl
              · rw [if_neg h6]
                by_cases h7 : c = '\x0c'
                · subst h7
                  rw [if_pos rfl]
                  simp only [List.cons_append, List.nil_append]
                  rw [psbF_esc f 'f' '\x0c' _ (by decide) (by decide), ih f rest hf]
                  rfl
                · rw [if_neg h7]
                  have hns := char_not_surrogate c
                  by_cases h8 : c.toNat < 0x20 ∨ (0x7F ≤ c.toNat ∧ c.toNat < 0x10000)
                  · rw [if_pos h8]
                    have hlt : c.toNat < 0x10000 := by
                      rcases h8 with h | h
                      · omega
                      · exact h.2
                    simp only [hex4Digits, List.cons_append, List.nil_append]
                    rw [psbF_u4 f _ _ _ _ _ c.toNat (hex4_hex4Digits c.toNat hlt)
                      (by omega) (by omega), ih f rest hf]
                    simp [Char.ofNat_toNat]
                  · rw [if_neg h8]
                    by_cases h9 : 0x10000 ≤ c.toNat
                    · rw [if_pos h9]
                      have hu : c.toNat - 0x10000 < 0x100000 := by
                        have := char_lt c
                        omega
                      simp only [hex4Digits, List.cons_append, List.nil_append,
                        List.append_assoc]
                      rw [psbF_upair f _ _ _ _ _ _ _ _ _
                        (0xD800 + (c.toNat - 0x10000) / 0x400)
                        (0xDC00 + (c.toNat - 0x10000) % 0x400)
                        (hex4_hex4Digits _ (by omega)) (hex4_hex4Digits _ (by omega))
                        (by omega) (by omega), ih f rest hf]
                      simp only [show 0x10000 +
                          (0xD800 + (c.toNat - 0x10000) / 0x400 - 0xD800) * 0x400 +
                          (0xDC00 + (c.toNat - 0x10000) % 0x400 - 0xDC00) = c.toNat from
                        by omega, Char.ofNat_toNat, Option.map_some']
                    · rw [if_neg h9]
                      simp only [List.cons_append, List.nil_append]
                      rw [psbF_plain f c _ h1 h2 (by omega), ih f rest hf]
                      rfl

theorem parseStringBody_escape (s rest : List Char) :
    parseStringBody (escapeStr s ++ '"' :: rest) = some (s, rest) := by
  rw [parseStringBody]
  refine psbF_escape s _ rest ?_
  have h1 := escapeStr_length s
  rw [List.length_append, List.length_cons]
  omega

/-! ## Number printing round trip -/

theorem parseNatDigits_replicate_prefix (z : ℕ) (u : List Char) :
    parseNatDigits (List.replicate z '0' ++ u) = parseNatDigits u := by
  induction z with
  | zero => rw [List.replicate_zero, List.nil_append]
  | succ z' ih => rw [List.replicate_succ, List.cons_append, parseNatDigits_leading_zero, ih]

theorem foldl_digits_replicate_zero (z : ℕ) : ∀ a : ℕ,
    (List.replicate z '0').foldl (fun a c => 10 * a + (c.toNat - 48)) a = a * 10 ^ z := by
  induction z with
  | zero => intro a; simp
  | succ z' ih =>
    intro a
    rw [List.replicate_succ, List.foldl_cons, ih]
    show (10 * a + 0) * 10 ^ z' = a * 10 ^ (z' + 1)
    rw [pow_succ]
    ring

theorem parseNatDigits_append_zeros (u : List Char) (z : ℕ) :
    parseNatDigits (u ++ List.replicate z '0') = parseNatDigits u * 10 ^ z := by
  rw [parseNatDigits, parseNatDigits, List.foldl_append, foldl_digits_replicate_zero]

theorem dropTrailingZeros_decomp (l : List Char) :
    ∃ z, l = dropTrailingZeros l ++ List.replicate z '0' := by
  refine ⟨(l.reverse.takeWhile (fun c => c = '0')).length, ?_⟩
  have h1 : ∀ c ∈ l.reverse.takeWhile (fun c => c = '0'), c = '0' := by
    intro c hc
    exact of_decide_eq_true (List.mem_takeWhile_imp (p := fun c => decide (c = '0')) hc)
  have h2 : l.reverse.takeWhile (fun c => c = '0') =
      List.replicate ((l.reverse.takeWhile (fun c => c = '0')).length) '0' :=
    List.eq_replicate_of_mem h1
  calc l = l.reverse.reverse := (List.reverse_reverse l).symm
  _ = (l.reverse.takeWhile (fun c => c = '0') ++ l.reverse.dropWhile (fun c => c = '0')).reverse := by
    rw [List.takeWhile_append_dropWhile]
  _ = (l.reverse.dropWhile (fun c => c = '0')).reverse ++
      (l.reverse.takeWhile (fun c => c = '0')).reverse := by
    rw [List.reverse_append]
  _ = dropTrailingZeros l ++ (l.reverse.takeWhile (fun c => c = '0')).reverse := rfl
  _ = dropTrailingZeros l ++
      List.replicate ((l.reverse.takeWhile (fun c => c = '0')).length) '0' := by
    conv_lhs => rw [h2]
    rw [List.reverse_replicate]

theorem mem_dropTrailingZeros (l : List Char) (c : Char) (hc : c ∈ dropTrailingZeros l) :
    c ∈ l := by
  obtain ⟨z, hz⟩ := dropTrailingZeros_decomp l
  rw [hz]
  exact List.mem_append_left _ hc

theorem dropTrailingZeros_nil_value (l : List Char) (h : dropTrailingZeros l = []) :
    parseNatDigits l = 0 := by
  obtain ⟨z, hz⟩ := dropTrailingZeros_decomp l
  rw [show parseNatDigits l = parseNatDigits (dropTrailingZeros l ++ List.replicate z '0') from
    congrArg _ hz, h, List.nil_append]
  rw [show List.replicate z '0' = List.replicate z '0' ++ [] from (List.append_nil _).symm,
    parseNatDigits_replicate_prefix]
  rfl

theorem natToDecimal_length_le (m k : ℕ) (hm : m < 10 ^ k) (hk : 1 ≤ k) :
    (natToDecimal m).length ≤ k := by
  rw [natToDecimal]
  by_cases h : m = 0
  · rw [if_pos h]
    simpa using hk
  · rw [if_neg h, natDecDigits_eq_digits, List.length_reverse, List.length_map]
    by_contra hgt
    push_neg at hgt
    have h1 := Nat.base_pow_length_digits_le 10 m (by norm_num) h
    have h2 : 10 ^ (k + 1) ≤ 10 ^ (Nat.digits 10 m).length :=
      Nat.pow_le_pow_right (by norm_num) hgt
    rw [pow_succ] at h2
    omega

theorem qFracRaw_all_digits (q : ℚ) : ∀ c ∈ qFracRaw q, c.isDigit = true := by
  intro c hc
  rw [qFracRaw] at hc
  rcases List.mem_append.mp hc with h | h
  · rw [List.eq_of_mem_replicate h]
    decide
  · exact natToDecimal_all_digits _ c h

theorem qFrac_all_digits (q : ℚ) : ∀ c ∈ qFrac q, c.isDigit = true := by
  intro c hc
  rw [qFrac] at hc
  by_cases h : dropTrailingZeros (qFracRaw q) = []
  · rw [if_pos h] at hc
    rcases List.mem_singleton.mp hc with rfl
    decide
  · rw [if_neg h] at hc
    exact qFracRaw_all_digits q c (mem_dropTrailingZeros _ c hc)

theorem qFrac_ne_nil (q : ℚ) : qFrac q ≠ [] := by
  rw [qFrac]
  by_cases h : dropTrailingZeros (qFracRaw q) = []
  · rw [if_pos h]
    simp
  · rw [if_neg h]
    exact h

theorem qFracRaw_length (q : ℚ) : (qFracRaw q).length = |q|.den := by
  rw [qFracRaw, List.length_append, List.length_replicate]
  have hlt : qNum q % 10 ^ |q|.den < 10 ^ |q|.den := Nat.mod_lt _ (by positivity)
  have hk : 1 ≤ |q|.den := (|q|).pos
  have := natToDecimal_length_le _ _ hlt hk
  omega

theorem parseNatDigits_qFracRaw (q : ℚ) :
    parseNatDigits (qFracRaw q) = qNum q % 10 ^ |q|.den := by
  rw [qFracRaw, parseNatDigits_replicate_prefix, parseNatDigits_natToDecimal]

theorem qFrac_value (q : ℚ) :
    (parseNatDigits (qFrac q) : ℚ) / 10 ^ (qFrac q).length =
      ((qNum q % 10 ^ |q|.den : ℕ) : ℚ) / 10 ^ |q|.den := by
  rw [qFrac]
  by_cases h : dropTrailingZeros (qFracRaw q) = []
  · rw [if_pos h]
    have h0 : qNum q % 10 ^ |q|.den = 0 := by
      have h1 := dropTrailingZeros_nil_value _ h
      rw [parseNatDigits_qFracRaw] at h1
      exact h1
    rw [h0, show parseNatDigits ['0'] = 0 from rfl]
    simp
  · rw [if_neg h]
    obtain ⟨z, hz⟩ := dropTrailingZeros_decomp (qFracRaw q)
    have hval : parseNatDigits (dropTrailingZeros (qFracRaw q)) * 10 ^ z =
        qNum q % 10 ^ |q|.den := by
      rw [← parseNatDigits_append_zeros, ← hz, parseNatDigits_qFracRaw]
    have hlen : (dropTrailingZeros (qFracRaw q)).length + z = |q|.den := by
      have h2 : (dropTrailingZeros (qFracRaw q) ++ List.replicate z '0').length = |q|.den := by
        rw [← hz]
        exact qFracRaw_length q
      rw [List.length_append, List.length_replicate] at h2
      exact h2
    rw [← hval, ← hlen, pow_add]
    have h10 : ((10 : ℚ) ^ z) ≠ 0 := by positivity
    push_cast
    rw [mul_div_mul_right _ _ h10]

theorem abs_den (q : ℚ) : |q|.den = q.den := by
  rcases le_or_lt 0 q with h | h
  · rw [abs_of_nonneg h]
  · rw [abs_of_neg h]
    exact Rat.neg_den q

theorem qNum_value (q : ℚ) (hq : DecFinite q) :
    ((qNum q / 10 ^ |q|.den : ℕ) : ℚ) + ((qNum q % 10 ^ |q|.den : ℕ) : ℚ) / 10 ^ |q|.den =
      |q| := by
  have hdvd : |q|.den ∣ 10 ^ |q|.den := by
    rw [abs_den]
    rw [DecFinite] at hq
    exact hq
  have hden0 : ((|q|.den : ℚ)) ≠ 0 := by
    have := (|q|).pos
    positivity
  have hnn : (0 : ℤ) ≤ |q|.num := Rat.num_nonneg.mpr (abs_nonneg q)
  have hnum : ((|q|.num.toNat : ℕ) : ℚ) = ((|q|.num : ℤ) : ℚ) := by
    rw [← Int.cast_natCast]
    exact congrArg _ (Int.toNat_of_nonneg hnn)
  have h1 : (qNum q : ℚ) = |q| * 10 ^ |q|.den := by
    rw [qNum]
    push_cast [Nat.cast_div hdvd hden0]
    rw [hnum]
    linear_combination (10 : ℚ) ^ |q|.den * Rat.num_div_den |q|
  have h2 : (10 : ℚ) ^ |q|.den * ((qNum q / 10 ^ |q|.den : ℕ) : ℚ) +
      ((qNum q % 10 ^ |q|.den : ℕ) : ℚ) = ((qNum q : ℕ) : ℚ) := by
    exact_mod_cast congrArg (fun n : ℕ => (n : ℚ))
      (Nat.div_add_mod (qNum q) (10 ^ |q|.den))
  have h10 : ((10 : ℚ) ^ |q|.den) ≠ 0 := by positivity
  field_simp
  rw [← h1]
  linear_combination h2

theorem parseJsonNumMag_qToChars (q : ℚ) (hq : DecFinite q) (rest : List Char)
    (hrest : ∀ c, rest.head? = some c → c.isDigit = false) :
    parseJsonNumMag ((natToDecimal (qNum q / 10 ^ |q|.den) ++ '.' :: qFrac q) ++ rest) =
      some (|q|, rest) := by
  rw [List.append_assoc, List.cons_append]
  rw [parseJsonNumMag]
  rw [takeDigits_exact (natToDecimal (qNum q / 10 ^ |q|.den)) ('.' :: (qFrac q ++ rest))
    (natToDecimal_all_digits _)
    (fun c hc => by
      rw [List.head?_cons, Option.some.injEq] at hc
      rw [← hc]
      decide)]
  simp only []
  rw [if_neg (natToDecimal_ne_nil _)]
  rw [expectChar_cons]
  simp only []
  rw [takeDigits_exact (qFrac q) rest (qFrac_all_digits q) hrest]
  simp only []
  rw [if_neg (qFrac_ne_nil q)]
  rw [parseNatDigits_natToDecimal]
  rw [Option.some.injEq, Prod.mk.injEq]
  exact ⟨qFrac_value q ▸ qNum_value q hq, rfl⟩

theorem parseJsonNumber_qToChars (q : ℚ) (hq : DecFinite q) (rest : List Char)
    (hrest : ∀ c, rest.head? = some c → c.isDigit = false) :
    parseJsonNumber (qToChars q ++ rest) = some (q, rest) := by
  rw [qToChars]
  by_cases hneg : q < 0
  · rw [if_pos hneg]
    simp only [List.cons_append, List.nil_append]
    rw [parseJsonNumber]
    simp only []
    rw [if_true]
    rw [parseJsonNumMag_qToChars q hq rest hrest]
    rw [Option.map_some']
    rw [abs_of_neg hneg]
    simp
  · rw [if_neg hneg, List.nil_append]
    obtain ⟨c0, t0, hct⟩ := List.exists_cons_of_ne_nil (natToDecimal_ne_nil (qNum q / 10 ^ |q|.den))
    have hc0 : c0.isDigit = true := natToDecimal_all_digits _ c0 (by rw [hct]; simp)
    rw [hct, List.append_assoc, List.cons_append, List.cons_append]
    rw [parseJsonNumber]
    rw [if_neg (show ¬ c0 = '-' by
      intro hcontra
      rw [hcontra] at hc0
      exact absurd hc0 (by decide))]
    rw [← List.cons_append, ← List.cons_append, ← hct, ← List.append_assoc]
    rw [parseJsonNumMag_qToChars q hq rest hrest]
    rw [abs_of_nonneg (not_lt.mp hneg)]

/-! ## Per-line round trip -/

theorem digit_not_jsonWs (c : Char) (h : c.isDigit = true) : jsonWsB c = false := by
  cases hjs : jsonWsB c
  · rfl
  · exfalso
    rw [jsonWsB] at hjs
    simp only [Bool.or_eq_true, decide_eq_true_eq] at hjs
    rcases hjs with ((rfl | rfl) | rfl) | rfl <;> exact absurd h (by decide)

theorem qToChars_cons (q : ℚ) : ∃ c0 t0, qToChars q = c0 :: t0 ∧ jsonWsB c0 = false ∧
    ¬ c0 = '"' ∧ (c0 = '-' ∨ c0.isDigit = true) := by
  rw [qToChars]
  by_cases hneg : q < 0
  · rw [if_pos hneg]
    exact ⟨'-', natToDecimal (qNum q / 10 ^ |q|.den) ++ '.' :: qFrac q, rfl,
      by decide, by decide, Or.inl rfl⟩
  · rw [if_neg hneg, List.nil_append]
    obtain ⟨c0, t0, hct⟩ :=
      List.exists_cons_of_ne_nil (natToDecimal_ne_nil (qNum q / 10 ^ |q|.den))
    have hc0 : c0.isDigit = true := natToDecimal_all_digits _ c0 (by rw [hct]; simp)
    refine ⟨c0, t0 ++ '.' :: qFrac q, by rw [hct]; simp, digit_not_jsonWs c0 hc0, ?_, Or.inr hc0⟩
    intro hcontra
    rw [hcontra] at hc0
    exact absurd hc0 (by decide)

theorem jsonSkipWs_strLit (v : String) (r : List Char) :
    jsonSkipWs (strLit v ++ r) = strLit v ++ r := by
  rw [show strLit v ++ r = '"' :: ((escapeStr v.data ++ ['"']) ++ r) from by rw [strLit]; rfl]
  rw [jsonSkipWs, List.dropWhile_cons_of_neg (by decide)]

theorem jsonSkipWs_qToChars (q : ℚ) (r : List Char) :
    jsonSkipWs (qToChars q ++ r) = qToChars q ++ r := by
  obtain ⟨c0, t0, hct, hws, _, _⟩ := qToChars_cons q
  rw [hct, List.cons_append, jsonSkipWs, List.dropWhile_cons_of_neg (by simp [hws])]

theorem parseJsonValue_str (v : String) (rest : List Char) :
    parseJsonValue (strLit v ++ rest) = some (JVal.str v, rest) := by
  rw [show strLit v ++ rest = '"' :: (escapeStr v.data ++ '"' :: rest) from by
    rw [strLit, List.cons_append, List.append_assoc, List.singleton_append]]
  rw [parseJsonValue]
  simp only [if_true]
  rw [parseStringBody_escape v.data rest]
  rfl

theorem parseJsonValue_not_quote (c : Char) (r : List Char) (h : ¬ c = '"') :
    parseJsonValue (c :: r) = (parseJsonNumber (c :: r)).map fun p => (JVal.num p.1, p.2) := by
  rw [parseJsonValue]
  rw [if_neg h]

theorem parseJsonValue_num (q : ℚ) (hq : DecFinite q) (rest : List Char)
    (hrest : ∀ c, rest.head? = some c → c.isDigit = false) :
    parseJsonValue (qToChars q ++ rest) = some (JVal.num q, rest) := by
  obtain ⟨c0, t0, hct, _, hnq, _⟩ := qToChars_cons q
  rw [show qToChars q ++ rest = c0 :: (t0 ++ rest) from by rw [hct]; rfl]
  rw [parseJsonValue_not_quote c0 (t0 ++ rest) hnq]
  rw [show c0 :: (t0 ++ rest) = qToChars q ++ rest from by rw [hct]; rfl]
  rw [parseJsonNumber_qToChars q hq rest hrest]
  rfl

theorem parseMember_build (l : List Char) (k : String) (val rest : List Char) (jv : JVal)
    (hskip : jsonSkipWs l = strLit k ++ ':' :: ' ' :: (val ++ rest))
    (hval : parseJsonValue (jsonSkipWs (val ++ rest)) = some (jv, rest)) :
    parseMember l = some ((k, jv), rest) := by
  rw [parseMember]
  rw [hskip]
  rw [show strLit k ++ ':' :: ' ' :: (val ++ rest) =
    '"' :: (escapeStr k.data ++ '"' :: (':' :: ' ' :: (val ++ rest))) from by
    rw [strLit, List.cons_append, List.append_assoc, List.singleton_append]]
  simp only [if_true]
  rw [parseStringBody_escape k.data]
  simp only [Option.some_bind]
  rw [show jsonSkipWs (':' :: ' ' :: (val ++ rest)) = ':' :: ' ' :: (val ++ rest) from
    List.dropWhile_cons_of_neg (by decide)]
  rw [expectChar_cons]
  simp only [Option.some_bind]
  rw [show jsonSkipWs (' ' :: (val ++ rest)) = jsonSkipWs (val ++ rest) from
    List.dropWhile_cons_of_pos (by decide)]
  rw [hval]
  rfl

theorem jsonSkipWs_cons_not_ws (c : Char) (r : List Char) (h : jsonWsB c = false) :
    jsonSkipWs (c :: r) = c :: r := List.dropWhile_cons_of_neg (by simp [h])

theorem parseMember_str (k v : String) (tail : List Char) :
    parseMember (strLit k ++ ':' :: ' ' :: (strLit v ++ tail)) = some ((k, JVal.str v), tail) :=
  parseMember_build _ k (strLit v) tail (JVal.str v) (jsonSkipWs_strLit k _)
    (by rw [jsonSkipWs_strLit]; exact parseJsonValue_str v tail)

theorem parseMember_num (k : String) (q : ℚ) (hq : DecFinite q) (tail : List Char)
    (htail : ∀ c, tail.head? = some c → c.isDigit = false) :
    parseMember (strLit k ++ ':' :: ' ' :: (qToChars q ++ tail)) = some ((k, JVal.num q), tail) :=
  parseMember_build _ k (qToChars q) tail (JVal.num q) (jsonSkipWs_strLit k _)
    (by rw [jsonSkipWs_qToChars]; exact parseJsonValue_num q hq tail htail)

theorem parseMember_space (l : List Char) : parseMember (' ' :: l) = parseMember l := by
  rw [parseMember, parseMember,
    show jsonSkipWs (' ' :: l) = jsonSkipWs l from List.dropWhile_cons_of_pos (by decide)]

theorem parseSegObj_dump (s : Segment) (h1 : DecFinite s.start) (h2 : DecFinite s.«end») :
    parseSegObj (dumpSegment s) =
      some ([("speaker", JVal.str s.speaker), ("text", JVal.str s.text),
             ("start", JVal.num s.start), ("end", JVal.num s.«end»)], []) := by
  rw [parseSegObj, dumpSegment]
  rw [jsonSkipWs_cons_not_ws _ _ (by decide), expectChar_cons]
  simp only [Option.some_bind]
  rw [parseMember_str "speaker" s.speaker _]
  simp only [Option.some_bind]
  rw [jsonSkipWs_cons_not_ws _ _ (by decide), expectChar_cons]
  simp only [Option.some_bind]
  rw [parseMember_space, parseMember_str "text" s.text _]
  simp only [Option.some_bind]
  rw [jsonSkipWs_cons_not_ws _ _ (by decide), expectChar_cons]
  simp only [Option.some_bind]
  rw [parseMember_space, parseMember_num "start" s.start h1 _ (fun c hc => by
    rw [List.head?_cons, Option.some.injEq] at hc
    rw [← hc]
    decide)]
  simp only [Option.some_bind]
  rw [jsonSkipWs_cons_not_ws _ _ (by decide), expectChar_cons]
  simp only [Option.some_bind]
  rw [parseMember_space, parseMember_num "end" s.«end» h2 _ (fun c hc => by
    rw [List.head?_cons, Option.some.injEq] at hc
    rw [← hc]
    decide)]
  simp only [Option.some_bind]
  rw [jsonSkipWs_cons_not_ws _ _ (by decide), expectChar_cons]
  rfl

theorem parseSegmentLine_dump (s : Segment) (h1 : DecFinite s.start) (h2 : DecFinite s.«end») :
    parseSegmentLine (dumpSegment s) = some s := by
  rw [parseSegmentLine, parseSegObj_dump s h1 h2]
  simp only [Option.some_bind]
  rfl

/-! ## Line framing -/

theorem hexDigitChar_ne_nl (d : ℕ) (hd : d < 16) : ¬ hexDigitChar d = '\n' := by
  interval_cases d <;> decide

theorem digit_ne_nl (c : Char) (h : c.isDigit = true) : ¬ c = '\n' := fun hc =>
  absurd (hc ▸ h) (by decide)

theorem uEsc_no_nl (n : ℕ) : ∀ c' ∈ '\\' :: 'u' :: hex4Digits n, ¬ c' = '\n' := by
  refine List.forall_mem_cons.mpr ⟨by decide, List.forall_mem_cons.mpr ⟨by decide, ?_⟩⟩
  rw [hex4Digits]
  refine List.forall_mem_cons.mpr ⟨hexDigitChar_ne_nl _ (by omega), ?_⟩
  refine List.forall_mem_cons.mpr ⟨hexDigitChar_ne_nl _ (by omega), ?_⟩
  refine List.forall_mem_cons.mpr ⟨hexDigitChar_ne_nl _ (by omega), ?_⟩
  exact List.forall_mem_singleton.mpr (hexDigitChar_ne_nl _ (by omega))

theorem escapeChar_no_nl (c : Char) : ∀ c' ∈ escapeChar c, ¬ c' = '\n' := by
  intro c' hc'
  rw [escapeChar] at hc'
  by_cases h1 : c = '"'
  · rw [if_pos h1] at hc'
    simp at hc'
    rcases hc' with rfl | rfl <;> decide
  · rw [if_neg h1] at hc'
    by_cases h2 : c = '\\'
    · rw [if_pos h2] at hc'
      simp at hc'
      subst hc'
      decide
    · rw [if_neg h2] at hc'
      by_cases h3 : c = '\n'
      · rw [if_pos h3] at hc'
        simp at hc'
        rcases hc' with rfl | rfl <;> decide
      · rw [if_neg h3] at hc'
        by_cases h4 : c = '\r'
        · rw [if_pos h4] at hc'
          simp at hc'
          rcases hc' with rfl | rfl <;> decide
        · rw [if_neg h4] at hc'
          by_cases h5 : c = '\t'
          · rw [if_pos h5] at hc'
            simp at hc'
            rcases hc' with rfl | rfl <;> decide
          · rw [if_neg h5] at hc'
            by_cases h6 : c = '\x08'
            · rw [if_pos h6] at hc'
              simp at hc'
              rcases hc' with rfl | rfl <;> decide
            · rw [if_neg h6] at hc'
              by_cases h7 : c = '\x0c'
              · rw [if_pos h7] at hc'
                simp at hc'
                rcases hc' with rfl | rfl <;> decide
              · rw [if_neg h7] at hc'
                by_cases h8 : c.toNat < 0x20 ∨ (0x7F ≤ c.toNat ∧ c.toNat < 0x10000)
                · rw [if_pos h8] at hc'
                  exact uEsc_no_nl c.toNat c' hc'
                · rw [if_neg h8] at hc'
                  by_cases h9 : 0x10000 ≤ c.toNat
                  · rw [if_pos h9] at hc'
                    rcases List.mem_append.mp hc' with hm | hm
                    · exact uEsc_no_nl _ c' hm
                    · exact uEsc_no_nl _ c' hm
                  · rw [if_neg h9] at hc'
                    simp at hc'
                    subst hc'
                    exact h3

theorem strLit_no_nl (v : String) : ∀ c' ∈ strLit v, ¬ c' = '\n' := by
  rw [strLit]
  refine List.forall_mem_cons.mpr ⟨by decide, ?_⟩
  refine List.forall_mem_append.mpr ⟨?_, List.forall_mem_singleton.mpr (by decide)⟩
  intro c' hc'
  rw [escapeStr] at hc'
  obtain ⟨c, _, hcc⟩ := List.mem_flatMap.mp hc'
  exact escapeChar_no_nl c c' hcc

theorem qToChars_no_nl (q : ℚ) : ∀ c' ∈ qToChars q, ¬ c' = '\n' := by
  rw [qToChars]
  refine List.forall_mem_append.mpr ⟨List.forall_mem_append.mpr ⟨?_, ?_⟩, ?_⟩
  · by_cases hneg : q < 0
    · rw [if_pos hneg]
      exact List.forall_mem_singleton.mpr (by decide)
    · rw [if_neg hneg]
      simp
  · intro c' hc'
    exact digit_ne_nl c' (natToDecimal_all_digits _ c' hc')
  · refine List.forall_mem_cons.mpr ⟨by decide, ?_⟩
    intro c' hc'
    exact digit_ne_nl c' (qFrac_all_digits q c' hc')

theorem dumpSegment_no_nl (s : Segment) : '\n' ∉ dumpSegment s := by
  suffices hall : ∀ c' ∈ dumpSegment s, ¬ c' = '\n' by
    intro hmem
    exact hall '\n' hmem rfl
  rw [dumpSegment]
  refine List.forall_mem_cons.mpr ⟨by decide, ?_⟩
  refine List.forall_mem_append.mpr ⟨strLit_no_nl "speaker", ?_⟩
  refine List.forall_mem_cons.mpr ⟨by decide, ?_⟩
  refine List.forall_mem_cons.mpr ⟨by decide, ?_⟩
  refine List.forall_mem_append.mpr ⟨strLit_no_nl s.speaker, ?_⟩
  refine List.forall_mem_cons.mpr ⟨by decide, ?_⟩
  refine List.forall_mem_cons.mpr ⟨by decide, ?_⟩
  refine List.forall_mem_append.mpr ⟨strLit_no_nl "text", ?_⟩
  refine List.forall_mem_cons.mpr ⟨by decide, ?_⟩
  refine List.forall_mem_cons.mpr ⟨by decide, ?_⟩
  refine List.forall_mem_append.mpr ⟨strLit_no_nl s.text, ?_⟩
  refine List.forall_mem_cons.mpr ⟨by decide, ?_⟩
  refine List.forall_mem_cons.mpr ⟨by decide, ?_⟩
  refine List.forall_mem_append.mpr ⟨strLit_no_nl "start", ?_⟩
  refine List.forall_mem_cons.mpr ⟨by decide, ?_⟩
  refine List.forall_mem_cons.mpr ⟨by decide, ?_⟩
  refine List.forall_mem_append.mpr ⟨qToChars_no_nl s.start, ?_⟩
  refine List.forall_mem_cons.mpr ⟨by decide, ?_⟩
  refine List.forall_mem_cons.mpr ⟨by decide, ?_⟩
  refine List.forall_mem_append.mpr ⟨strLit_no_nl "end", ?_⟩
  refine List.forall_mem_cons.mpr ⟨by decide, ?_⟩
  refine List.forall_mem_cons.mpr ⟨by decide, ?_⟩
  refine List.forall_mem_append.mpr ⟨qToChars_no_nl s.«end», ?_⟩
  exact List.forall_mem_singleton.mpr (by decide)

theorem dumpSegment_getLast (s : Segment) : (dumpSegment s).getLast? = some '}' := by
  rw [dumpSegment]
  simp [List.getLast?_cons, List.getLast?_append]

theorem dropWhile_of_head_not (l : List Char)
    (h : ∀ c, l.head? = some c → pyIsSpace c = false) : l.dropWhile pyIsSpace = l := by
  cases l with
  | nil => rfl
  | cons c r => exact List.dropWhile_cons_of_neg (by simp [h c rfl])

theorem pyStrip_no_strip (l : List Char)
    (hhead : ∀ c, l.head? = some c → pyIsSpace c = false)
    (hlast : ∀ c, l.getLast? = some c → pyIsSpace c = false) : pyStrip l = l := by
  rw [pyStrip, dropWhile_of_head_not l hhead]
  rw [dropWhile_of_head_not l.reverse
    (fun c hc => hlast c (by rwa [List.head?_reverse] at hc))]
  exact List.reverse_reverse l

theorem joinWith_getLast (sep : List Char) (e : Char) (ls : List (List Char)) (hne : ls ≠ [])
    (h : ∀ l ∈ ls, l.getLast? = some e) : (joinWith sep ls).getLast? = some e := by
  induction ls with
  | nil => exact absurd rfl hne
  | cons x xs ih =>
    cases xs with
    | nil =>
      rw [show joinWith sep [x] = x from rfl]
      exact h x (by simp)
    | cons y ys =>
      rw [show joinWith sep (x :: y :: ys) = x ++ sep ++ joinWith sep (y :: ys) from rfl]
      rw [List.append_assoc, List.getLast?_append, List.getLast?_append]
      rw [ih (by simp) (fun l hl => h l (List.mem_cons_of_mem _ hl))]
      rfl

theorem splitChar_joinWith_lines (sep : Char) (ls : List (List Char)) (hne : ls ≠ [])
    (hfree : ∀ l ∈ ls, sep ∉ l) : splitChar sep (joinWith [sep] ls) = ls := by
  induction ls with
  | nil => exact absurd rfl hne
  | cons x xs ih =>
    cases xs with
    | nil =>
      rw [show joinWith [sep] [x] = x from rfl, splitChar_sepFree sep x (hfree x (by simp))]
    | cons y ys =>
      rw [show joinWith [sep] (x :: y :: ys) = x ++ sep :: joinWith [sep] (y :: ys) from by
        rw [show joinWith [sep] (x :: y :: ys) = x ++ [sep] ++ joinWith [sep] (y :: ys) from rfl]
        rw [List.append_assoc, List.singleton_append]]
      rw [splitChar_append, splitChar_sepFree sep x (hfree x (by simp))]
      rw [ih (by simp) (fun l hl => hfree l (List.mem_cons_of_mem _ hl))]
      rfl

theorem mapM_dump (segs : List Segment)
    (h : ∀ s ∈ segs, DecFinite s.start ∧ DecFinite s.«end») :
    (segs.map dumpSegment).mapM parseSegmentLine = some segs := by
  induction segs with
  | nil => rfl
  | cons s rest ih =>
    rw [List.map_cons, List.mapM_cons]
    rw [parseSegmentLine_dump s (h s (by simp)).1 (h s (by simp)).2]
    rw [ih (fun x hx => h x (List.mem_cons_of_mem _ hx))]
    rfl

/-- **C2**: for every list of segments (timestamps being decimal-finite
rationals, the image of finite binary64 floats in this embedding, and
text/speaker arbitrary Unicode strings), `from_jsonl (to_jsonl segs)`
recovers the list exactly. -/
theorem C2_jsonl_roundtrip (segs : List Segment)
    (h : ∀ s ∈ segs, DecFinite s.start ∧ DecFinite s.«end») :
    from_jsonl (to_jsonl segs) = some segs := by
  cases segs with
  | nil => rfl
  | cons s0 rest =>
    rw [to_jsonl, from_jsonl]
    rw [show (String.mk (joinWith ['\n'] ((s0 :: rest).map dumpSegment))).data =
      joinWith ['\n'] ((s0 :: rest).map dumpSegment) from rfl]
    have hnl : ∀ l ∈ (s0 :: rest).map dumpSegment, '\n' ∉ l := by
      intro l hl
      obtain ⟨s, _, rfl⟩ := List.mem_map.mp hl
      exact dumpSegment_no_nl s
    have hlast : ∀ l ∈ (s0 :: rest).map dumpSegment, l.getLast? = some '}' := by
      intro l hl
      obtain ⟨s, _, rfl⟩ := List.mem_map.mp hl
      exact dumpSegment_getLast s
    rw [pyStrip_no_strip _ ?hh ?hl]
    case hh =>
      intro c hc
      rw [List.map_cons] at hc
      rw [show dumpSegment s0 = '{' :: (strLit "speaker" ++ ':' :: ' ' ::
        (strLit s0.speaker ++ ',' :: ' ' :: (strLit "text" ++ ':' :: ' ' ::
        (strLit s0.text ++ ',' :: ' ' :: (strLit "start" ++ ':' :: ' ' ::
        (qToChars s0.start ++ ',' :: ' ' :: (strLit "end" ++ ':' :: ' ' ::
        (qToChars s0.«end» ++ ['}'])))))))) from rfl] at hc
      rw [joinWith_cons_head, List.head?_cons, Option.some.injEq] at hc
      rw [← hc]
      decide
    case hl =>
      have := joinWith_getLast ['\n'] '}' _ (by simp) hlast
      intro c hc
      rw [this, Option.some.injEq] at hc
      rw [← hc]
      decide
    rw [splitChar_joinWith_lines '\n' _ (by simp) hnl]
    rw [List.filter_eq_self.mpr ?keep]
    case keep =>
      intro l hl
      obtain ⟨s, _, rfl⟩ := List.mem_map.mp hl
      rw [pyStrip_no_strip (dumpSegment s)
        (fun c hc => by
          rw [show dumpSegment s = '{' :: (strLit "speaker" ++ ':' :: ' ' ::
            (strLit s.speaker ++ ',' :: ' ' :: (strLit "text" ++ ':' :: ' ' ::
            (strLit s.text ++ ',' :: ' ' :: (strLit "start" ++ ':' :: ' ' ::
            (qToChars s.start ++ ',' :: ' ' :: (strLit "end" ++ ':' :: ' ' ::
            (qToChars s.«end» ++ ['}'])))))))) from rfl, List.head?_cons,
            Option.some.injEq] at hc
          rw [← hc]
          decide)
        (fun c hc => by
          rw [dumpSegment_getLast s, Option.some.injEq] at hc
          rw [← hc]
          decide)]
      rw [show dumpSegment s = '{' :: (strLit "speaker" ++ ':' :: ' ' ::
        (strLit s.speaker ++ ',' :: ' ' :: (strLit "text" ++ ':' :: ' ' ::
        (strLit s.text ++ ',' :: ' ' :: (strLit "start" ++ ':' :: ' ' ::
        (qToChars s.start ++ ',' :: ' ' :: (strLit "end" ++ ':' :: ' ' ::
        (qToChars s.«end» ++ ['}'])))))))) from rfl]
      rfl
    exact mapM_dump (s0 :: rest) h

/-- Witness for C2: a concrete two-segment list with Unicode text, an
escaped newline, and sub-second timestamps round-trips exactly. -/
theorem C2_jsonl_roundtrip_witness :
    (∀ s ∈ [(⟨"héllo 👋", "a\nb", mkRat 1 4, mkRat 131 2⟩ : Segment),
            (⟨"B", "ok", mkRat 131 2, mkRat 66 1⟩ : Segment)],
        DecFinite s.start ∧ DecFinite s.«end») ∧
    from_jsonl (to_jsonl [(⟨"héllo 👋", "a\nb", mkRat 1 4, mkRat 131 2⟩ : Segment),
            (⟨"B", "ok", mkRat 131 2, mkRat 66 1⟩ : Segment)]) =
      some [(⟨"héllo 👋", "a\nb", mkRat 1 4, mkRat 131 2⟩ : Segment),
            (⟨"B", "ok", mkRat 131 2, mkRat 66 1⟩ : Segment)] :=
  ⟨by decide, C2_jsonl_roundtrip _ (by decide)⟩
